import Mathlib

/-!
# gogroup: the import grouper and the import reader

A shallow embedding of `grouper.go`, of the classification part of `read.go` and of
`validateAll` of `cmd/gogroup/main.go`.

Modelling conventions.

* Go strings are modelled by `String`; the source only ever handles command-line
  arguments and import paths, which are treated here as sequences of characters.
* `map[int]string` is modelled by an association list `List (Int × String)` holding at
  most one entry per key (`mapSet` overwrites).  The order of the list carries no
  meaning: a `range` loop over a map visits every entry exactly once in an order that is
  not specified, so every function that ranges over a map takes the order of the visit
  as an argument, and `IterationOf` says that this order is an enumeration of the map.
* `int` is modelled by `Int`; `next` only grows by one per token, so it cannot wrap.
* The package `regexp` is not part of the repository.  The two fixed patterns of
  `grouper.go` are modelled by their meaning; the patterns supplied by the user are
  interpreted by a parameter `re`, with `re pat = none` when `pat` does not compile
  (`regexp.MustCompile` panics) and `re pat = some m` when it compiles to the matcher `m`.
* A panic is the result `none`.
* The loop of `String` is given fuel, one unit for each test of its condition; the
  result is `none` when the fuel ends first.
* `validateAll` is given, for each file of the command line, the pair that
  `validateOne` returns for it; the processor is not part of the files embedded here.
-/

namespace gogroup

/-! ## Strings -/

/-- Go `strings.HasPrefix(s, p)`. -/
def HasPrefix (s p : String) : Bool :=
  p.data.isPrefixOf s.data

/-- Go `strings.Contains(s, sub)`: some suffix of `s` starts with `sub`. -/
def Contains (s sub : String) : Bool :=
  s.data.tails.any (fun t => sub.data.isPrefixOf t)

/-- Splitting a list of characters at every comma; the result is never empty. -/
def splitChars : List Char → List (List Char)
  | [] => [[]]
  | c :: cs =>
    if c = ',' then [] :: splitChars cs
    else
      match splitChars cs with
      | [] => [[c]]
      | t :: ts => (c :: t) :: ts

/-- Go `strings.Split(s, ",")`. -/
def Split (s : String) : List String :=
  (splitChars s.data).map String.mk

/-! ## Maps -/

/-- Go `m[k] = v` on a `map[int]string`. -/
def mapSet : List (Int × String) → Int → String → List (Int × String)
  | [], k, v => [(k, v)]
  | (k', v') :: m, k, v =>
    if k' = k then (k, v) :: m else (k', v') :: mapSet m k v

/-- Go `v, ok := m[k]`. -/
def mapGet : List (Int × String) → Int → Option String
  | [], _ => none
  | (k', v') :: m, k => if k' = k then some v' else mapGet m k

/-- The order `it` is one in which a `range` loop may visit the entries of the map `m`. -/
def IterationOf (m it : List (Int × String)) : Prop :=
  it.Perm m

instance (m it : List (Int × String)) : Decidable (IterationOf m it) := by
  unfold IterationOf; infer_instance

/-! ## The grouper (`grouper.go`) -/

/-- The struct `grouper`. -/
structure grouper where
  regexps : List (Int × String)
  prefixes : List (Int × String)
  std : Int
  other : Int
  named : Int
  next : Int
  deriving DecidableEq, Repr

/-- Go `NewGrouper`. -/
def NewGrouper : grouper :=
  { regexps := [], prefixes := [], std := 0, other := 1, named := 2, next := 3 }

/-- The first loop of `Group`, visiting the regexp rules in the order `it`:
`none` is a panic of `regexp.MustCompile`, `some (some n)` is `return n`, and
`some none` is the end of the loop. -/
def rangeRegexps (re : String → Option (String → Bool)) :
    List (Int × String) → String → Option (Option Int)
  | [], _ => some none
  | (n, regexpStr) :: rest, pkg =>
    match re regexpStr with
    | none => none
    | some m => if m pkg then some (some n) else rangeRegexps re rest pkg

/-- The second loop of `Group`, visiting the prefix rules in the order `it`:
`some n` is `return n`, `none` is the end of the loop. -/
def rangePrefixes : List (Int × String) → String → Option Int
  | [], _ => none
  | (n, pre) :: rest, pkg =>
    if HasPrefix pkg pre then some n else rangePrefixes rest pkg

/-- Go `(*grouper).Group`, with the orders `itR` and `itP` in which the two `range`
loops visit `g.regexps` and `g.prefixes`.  The result `none` is a panic. -/
def grouper.Group (re : String → Option (String → Bool)) (g : grouper)
    (itR itP : List (Int × String)) (pkg : String) : Option Int :=
  match rangeRegexps re itR pkg with
  | none => none
  | some (some n) => some n
  | some none =>
    match rangePrefixes itP pkg with
    | some n => some n
    | none =>
      if Contains pkg " " then some g.named
      else if Contains pkg "." then some g.other
      else some g.std

/-- Go `(*grouper).wasSet`. -/
def grouper.wasSet (g : grouper) : Bool :=
  decide (g.next > 3)

/-- The match of a pattern `^key(.*)$` against `p`, as `FindStringSubmatch` returns its
first group: `.` matches every character but the newline, and `^` and `$` match only at
the two ends of the text, so `p` matches when it starts with `key` and no newline
follows; the group is then the rest of `p`. -/
def findAfter (key p : String) : Option String :=
  if HasPrefix p key ∧ '\n' ∉ p.data.drop key.length then
    some (String.mk (p.data.drop key.length))
  else none

/-- The submatch `match[1]` of `rePrefix.FindStringSubmatch(p)`, or `none` when the
result is nil. -/
def rePrefix (p : String) : Option String :=
  findAfter "prefix=" p

/-- The submatch `match[1]` of `reRegexp.FindStringSubmatch(p)`, or `none` when the
result is nil. -/
def reRegexp (p : String) : Option String :=
  findAfter "regexp=" p

/-- Go `fmt.Errorf("Unknown order specification '%s'", p)`, as the message it carries. -/
def unknownSpec (p : String) : String :=
  "Unknown order specification '" ++ p ++ "'"

/-- The loop of `Set` over `parts`: the state the grouper is left in, and the error
returned (`none` is nil). -/
def setParts : grouper → List String → grouper × Option String
  | g, [] => (g, none)
  | g, p :: parts =>
    if p = "std" then
      setParts { g with std := g.next, next := g.next + 1 } parts
    else if p = "named" then
      setParts { g with named := g.next, next := g.next + 1 } parts
    else if p = "other" then
      setParts { g with other := g.next, next := g.next + 1 } parts
    else
      match rePrefix p with
      | some lit =>
        setParts { g with prefixes := mapSet g.prefixes g.next lit, next := g.next + 1 } parts
      | none =>
        match reRegexp p with
        | some pat =>
          setParts { g with regexps := mapSet g.regexps g.next pat, next := g.next + 1 } parts
        | none => (g, some (unknownSpec p))

/-- Go `(*grouper).Set`: the state the grouper is left in, and the error returned. -/
def grouper.Set (g : grouper) (s : String) : grouper × Option String :=
  setParts g (Split s)

/-- The body of the loop of `Set` on one token `p`: the grouper after the token, or
`none` when the last branch returns the error. -/
def applyToken (g : grouper) (p : String) : Option grouper :=
  (setParts g [p]).2.elim (some (setParts g [p]).1) (fun _ => none)

/-- The five tests of the loop of `Set`: `p` is accepted by one of them. -/
def recognised (p : String) : Bool :=
  p = "std" || p = "named" || p = "other" || (rePrefix p).isSome || (reRegexp p).isSome

/-- The groupers that `NewGrouper` and calls of `Set`, failing or not, give. -/
inductive Reachable : grouper → Prop
  | fresh : Reachable NewGrouper
  | set (g : grouper) (s : String) : Reachable g → Reachable (g.Set s).1

/-- The three default groups have pairwise distinct indices, all below `next`. -/
def DistinctDefaults (g : grouper) : Prop :=
  g.std < g.next ∧ g.named < g.next ∧ g.other < g.next ∧
  g.std ≠ g.named ∧ g.std ≠ g.other ∧ g.named ≠ g.other

/-! ## The import reader (`read.go`) -/

/-- The parts of an `ast.ImportSpec` that `readImports` reads, with the calls that do
not belong to the repository already made. -/
structure ImportSpec where
  /-- The alias `ispec.Name.Name`, or `none` when `ispec.Name` is nil. -/
  Name : Option String
  /-- The result of `strconv.Unquote(ispec.Path.Value)`, or `none` when it is an error. -/
  Path : Option String
  /-- The line `file.Line(ispec.Pos())`. -/
  PosLine : Int
  /-- The line `file.Line(ispec.End())`. -/
  EndLine : Int
  /-- The line `file.Line(ispec.Doc.Pos())`, or `none` when `ispec.Doc` is nil. -/
  DocLine : Option Int
  deriving DecidableEq, Repr

/-- The struct `groupedImport`. -/
structure groupedImport where
  startLine : Int
  endLine : Int
  path : String
  group : Int
  named : Bool
  name : String
  deriving DecidableEq, Repr

/-- The ways a call ends: a panic, an error returned, or a value returned. -/
inductive Outcome (α : Type) where
  | panic : Outcome α
  | error : Outcome α
  | ok (a : α) : Outcome α
  deriving DecidableEq, Repr

/-- The key `groupPath` that `readImports` hands to `Group`. -/
def groupPath (named : Bool) (name path : String) : String :=
  if named then name ++ " " ++ path else path

/-- The loop of `readImports` over `tree.Imports`, from the import of rank `i` on; the
call of `Group` for the import of rank `i` visits the maps in the orders `its i`. -/
def readSpecs (re : String → Option (String → Bool)) (g : grouper)
    (its : Nat → List (Int × String) × List (Int × String)) :
    Nat → List ImportSpec → Outcome (List groupedImport)
  | _, [] => Outcome.ok []
  | i, ispec :: rest =>
    let named := ispec.Name.isSome
    let name := ispec.Name.getD ""
    match ispec.Path with
    | none => Outcome.error
    | some path =>
      let startLine := ispec.DocLine.getD ispec.PosLine
      match g.Group re (its i).1 (its i).2 (groupPath named name path) with
      | none => Outcome.panic
      | some group =>
        match readSpecs re g its (i + 1) rest with
        | Outcome.ok gs =>
          Outcome.ok ({ startLine := startLine - 1, endLine := ispec.EndLine - 1,
                        path := path, group := group, named := named, name := name } :: gs)
        | Outcome.panic => Outcome.panic
        | Outcome.error => Outcome.error

/-- Go `(*Processor).readImports` on a file that `parser.ParseFile` accepts, `imports`
being its list `tree.Imports` and `g` the grouper of the processor. -/
def readImports (re : String → Option (String → Bool)) (g : grouper)
    (its : Nat → List (Int × String) × List (Int × String))
    (imports : List ImportSpec) : Outcome (List groupedImport) :=
  readSpecs re g its 0 imports

/-! ## Rendering (`grouper.go`) -/

/-- The loop of `String`, from the index `i` with the counter `remain` and the parts
`parts`.  Every test of the loop condition takes one unit of `fuel`; the result is `none`
when the fuel ends before the loop does, and otherwise the parts, the index and the
counter with which the loop ends. -/
def stringLoop (g : grouper) : Nat → Int → Int → List String →
    Option (List String × Int × Int)
  | 0, _, _, _ => none
  | fuel + 1, i, remain, parts =>
    if i ≤ g.std ∨ i ≤ g.named ∨ remain > 0 then
      if g.std = i then stringLoop g fuel (i + 1) remain (parts ++ ["std"])
      else if g.named = i then stringLoop g fuel (i + 1) remain (parts ++ ["named"])
      else if g.other = i then stringLoop g fuel (i + 1) remain (parts ++ ["other"])
      else
        match mapGet g.prefixes i with
        | some p => stringLoop g fuel (i + 1) (remain - 1) (parts ++ ["prefix=" ++ p])
        | none =>
          match mapGet g.regexps i with
          | some p => stringLoop g fuel (i + 1) (remain - 1) (parts ++ ["regexp=" ++ p])
          | none => stringLoop g fuel (i + 1) remain parts
    else some (parts, i, remain)

/-- Go `(*grouper).String`, with the fuel given to its loop; `none` when the loop does
not end within the fuel. -/
def grouper.String (g : grouper) (fuel : Nat) : Option String :=
  (stringLoop g fuel 0 (g.prefixes.length + g.regexps.length) []).map
    (fun r => String.intercalate "," r.1)

/-- The keys of a map. -/
def keys (m : List (Int × String)) : List Int :=
  m.map Prod.fst

/-- The number of rules of `g` whose index is at least `i`. -/
def rulesFrom (g : grouper) (i : Int) : Nat :=
  ((keys g.prefixes).filter (fun k => decide (i ≤ k))).length +
    ((keys g.regexps).filter (fun k => decide (i ≤ k))).length

/-- The invariant of the groupers that `NewGrouper` and `Set` build: each map holds a key
once, the keys lie in `[3, next)`, no key is in both maps, the indices of std, named and
other are pairwise distinct, each at its default or in `[3, next)`, and none is a key. -/
structure Invariant (g : grouper) : Prop where
  next_ge : 3 ≤ g.next
  nodupP : (keys g.prefixes).Nodup
  nodupR : (keys g.regexps).Nodup
  rangeP : ∀ k ∈ keys g.prefixes, 3 ≤ k ∧ k < g.next
  rangeR : ∀ k ∈ keys g.regexps, 3 ≤ k ∧ k < g.next
  disjoint : ∀ k ∈ keys g.prefixes, k ∉ keys g.regexps
  std_named : g.std ≠ g.named
  std_other : g.std ≠ g.other
  named_other : g.named ≠ g.other
  std_range : g.std = 0 ∨ (3 ≤ g.std ∧ g.std < g.next)
  named_range : g.named = 2 ∨ (3 ≤ g.named ∧ g.named < g.next)
  other_range : g.other = 1 ∨ (3 ≤ g.other ∧ g.other < g.next)
  not_key : ∀ k, k ∈ keys g.prefixes ∨ k ∈ keys g.regexps →
    k ≠ g.std ∧ k ≠ g.named ∧ k ≠ g.other

/-- A struct value that `Set` cannot build: a prefix rule under the index of std. -/
def shadowedRule : grouper :=
  { regexps := [], prefixes := [(0, "a")], std := 0, other := 1, named := 2, next := 3 }

/-! ## The command (`cmd/gogroup/main.go`) -/

/-- The constant `statusError`. -/
def statusError : Nat := 1

/-- The constant `statusHelp`. -/
def statusHelp : Nat := 2

/-- The constant `statusInvalidFile`. -/
def statusInvalidFile : Nat := 3

/-- The fields of a `gogroup.ValidationError` that `validateAll` prints. -/
structure ValidationError where
  Line : Int
  Message : String
  ImportPath : String
  deriving DecidableEq, Repr

/-- What a run of `validateAll` has done when it ends: the files it has handed to
`validateOne`, the validation errors it has reported on the standard output, each with
its file, the messages it has written on the standard error, and the status with which
it has called `os.Exit`, or `none` when it has returned. -/
structure Run where
  checked : List String
  stdout : List (String × ValidationError)
  stderr : List String
  exit : Option Nat
  deriving DecidableEq, Repr

/-- The loop of `validateAll` over the files, each given with the pair
`(validErr, err)` that `validateOne` returns for it (`none` is nil). -/
def validateLoop : List (String × Option ValidationError × Option String) → Bool →
    List String → List (String × ValidationError) → Run
  | [], invalid, checked, out =>
    { checked := checked, stdout := out, stderr := [],
      exit := if invalid then some statusInvalidFile else none }
  | (file, validErr, err) :: rest, invalid, checked, out =>
    match err with
    | some e =>
      { checked := checked ++ [file], stdout := out, stderr := [e],
        exit := some statusError }
    | none =>
      match validErr with
      | some v => validateLoop rest true (checked ++ [file]) (out ++ [(file, v)])
      | none => validateLoop rest invalid (checked ++ [file]) out

/-- Go `validateAll`, on the files of the command line with the results of their
checks. -/
def validateAll (files : List (String × Option ValidationError × Option String)) : Run :=
  validateLoop files false [] []

/-! ## A regexp engine for the examples -/

/-- The behaviour of `regexp.MustCompile` on the patterns of the examples: a pattern
`^lit` whose literal `lit` is made of letters, digits, `/`, `-` and `_` compiles and
matches the strings that start with `lit`; the pattern `(` does not compile (its group
is not closed).  Every other pattern is left out of the examples and is given no
matcher here. -/
def exampleRegexp (pat : String) : Option (String → Bool) :=
  match pat.data with
  | '^' :: lit =>
    if lit.all (fun c => c.isAlphanum || c = '/' || c = '-' || c = '_') then
      some (fun s => lit.isPrefixOf s.data)
    else none
  | _ => none

/-! ## Lemmas on strings -/

theorem isPrefixOf_single (c : Char) (t : List Char) :
    [c].isPrefixOf t = decide (t.head? = some c) := by
  cases t with
  | nil => simp [List.isPrefixOf]
  | cons a t =>
    by_cases h : c = a
    · simp [List.isPrefixOf, h]
    · have h2 : ¬ a = c := fun e => h e.symm
      simp [List.isPrefixOf, h, h2]

theorem any_tails_single (c : Char) (l : List Char) :
    l.tails.any (fun t => [c].isPrefixOf t) = decide (c ∈ l) := by
  induction l with
  | nil => simp [List.isPrefixOf]
  | cons a l ih =>
    rw [List.tails, List.any_cons, ih, isPrefixOf_single]
    by_cases h : a = c <;> simp [h, eq_comm]

theorem Contains_space (s : String) : Contains s " " = decide (' ' ∈ s.data) :=
  any_tails_single ' ' s.data

theorem Contains_dot (s : String) : Contains s "." = decide ('.' ∈ s.data) :=
  any_tails_single '.' s.data

theorem HasPrefix_iff (s p : String) : HasPrefix s p = true ↔ p.data <+: s.data := by
  simp [HasPrefix]

theorem findAfter_eq_some (key p lit : String) :
    findAfter key p = some lit ↔ p = key ++ lit ∧ '\n' ∉ lit.data := by
  unfold findAfter
  constructor
  · intro h
    split at h
    · rename_i hc
      obtain ⟨hp, hn⟩ := hc
      have hlit : lit = String.mk (List.drop key.length p.data) := by
        simpa using h.symm
      rw [HasPrefix_iff, List.prefix_iff_eq_append] at hp
      subst hlit
      refine ⟨?_, hn⟩
      apply String.ext
      rw [String.data_append]
      exact hp.symm
    · simp at h
  · rintro ⟨rfl, hn⟩
    have hd : List.drop key.length (key ++ lit).data = lit.data := by
      show List.drop key.data.length (key ++ lit).data = lit.data
      rw [String.data_append]
      exact List.drop_left _ _
    have hp : HasPrefix (key ++ lit) key = true := by
      rw [HasPrefix_iff, String.data_append]
      exact List.prefix_append _ _
    rw [if_pos ⟨hp, by rw [hd]; exact hn⟩, hd]

theorem findAfter_isSome (key p : String) :
    (findAfter key p).isSome = true ↔ ∃ lit, p = key ++ lit ∧ '\n' ∉ lit.data := by
  rw [Option.isSome_iff_exists]
  exact exists_congr (fun lit => findAfter_eq_some key p lit)

theorem recognised_iff (p : String) :
    recognised p = true ↔
      p = "std" ∨ p = "named" ∨ p = "other" ∨
      (∃ lit, p = "prefix=" ++ lit ∧ '\n' ∉ lit.data) ∨
      (∃ pat, p = "regexp=" ++ pat ∧ '\n' ∉ pat.data) := by
  simp only [recognised, Bool.or_eq_true, decide_eq_true_eq, rePrefix, reRegexp,
    findAfter_isSome, or_assoc]

/-! ## Lemmas on `Group` -/

theorem rangePrefixes_none (it : List (Int × String)) (pkg : String)
    (h : ∀ e ∈ it, ¬ e.2.data <+: pkg.data) : rangePrefixes it pkg = none := by
  induction it with
  | nil => rfl
  | cons e it ih =>
    obtain ⟨n, pre⟩ := e
    have h1 : HasPrefix pkg pre = false := by
      have := h (n, pre) (List.mem_cons_self _ _)
      rw [← HasPrefix_iff] at this
      simpa using this
    simp only [rangePrefixes, h1]
    exact ih (fun e he => h e (List.mem_cons_of_mem _ he))

theorem Group_fallback (re : String → Option (String → Bool)) (g : grouper)
    (itR itP : List (Int × String)) (pkg : String)
    (hR : rangeRegexps re itR pkg = some none) (hP : rangePrefixes itP pkg = none) :
    g.Group re itR itP pkg =
      some (if ' ' ∈ pkg.data then g.named
            else if '.' ∈ pkg.data then g.other else g.std) := by
  simp only [grouper.Group, hR, hP, Contains_space, Contains_dot]
  by_cases h1 : ' ' ∈ pkg.data <;> by_cases h2 : '.' ∈ pkg.data <;> simp [h1, h2]

theorem rangeRegexps_some (re : String → Option (String → Bool))
    (it : List (Int × String)) (pkg : String) (n : Int)
    (h : rangeRegexps re it pkg = some (some n)) :
    ∃ pat m, (n, pat) ∈ it ∧ re pat = some m ∧ m pkg = true := by
  induction it with
  | nil => simp [rangeRegexps] at h
  | cons e it ih =>
    obtain ⟨k, pat⟩ := e
    simp only [rangeRegexps] at h
    cases hre : re pat with
    | none => simp [hre] at h
    | some m =>
      simp only [hre] at h
      by_cases hm : m pkg = true
      · simp only [hm, if_true, Option.some.injEq] at h
        subst h
        exact ⟨pat, m, List.mem_cons_self _ _, hre, hm⟩
      · simp only [hm] at h
        obtain ⟨pat1, m1, h1, h2, h3⟩ := ih h
        exact ⟨pat1, m1, List.mem_cons_of_mem _ h1, h2, h3⟩

theorem rangeRegexps_ne_none (re : String → Option (String → Bool))
    (it : List (Int × String)) (pkg : String)
    (hcomp : ∀ e ∈ it, (re e.2).isSome = true) : rangeRegexps re it pkg ≠ none := by
  induction it with
  | nil => simp [rangeRegexps]
  | cons e it ih =>
    obtain ⟨k, pat⟩ := e
    obtain ⟨m, hm⟩ := Option.isSome_iff_exists.1 (hcomp (k, pat) (List.mem_cons_self _ _))
    simp only [rangeRegexps, hm]
    by_cases hp : m pkg = true
    · simp [hp]
    · simp only [hp]
      exact ih (fun e he => hcomp e (List.mem_cons_of_mem _ he))

theorem rangeRegexps_ne_end (re : String → Option (String → Bool))
    (it : List (Int × String)) (pkg : String)
    (hmatch : ∃ e ∈ it, ∃ m, re e.2 = some m ∧ m pkg = true) :
    rangeRegexps re it pkg ≠ some none := by
  induction it with
  | nil =>
    obtain ⟨e, he, -⟩ := hmatch
    simp at he
  | cons e it ih =>
    obtain ⟨k, pat⟩ := e
    simp only [rangeRegexps]
    cases hre : re pat with
    | none => simp
    | some m =>
      by_cases hp : m pkg = true
      · simp [hp]
      · simp only [hp]
        apply ih
        obtain ⟨e1, he1, m1, h1, h2⟩ := hmatch
        rcases List.mem_cons.1 he1 with rfl | he1
        · rw [hre] at h1
          exact absurd ((Option.some.inj h1) ▸ h2) hp
        · exact ⟨e1, he1, m1, h1, h2⟩

/-- C1: on a grouper without regexp rules, a key that none of the configured prefixes is
a prefix of is classified by the heuristic alone, whatever the order in which the maps
are visited: the named index if the key contains a space, otherwise the other index if
it contains a dot, otherwise the std index. -/
theorem Group_no_rule (re : String → Option (String → Bool)) (g : grouper)
    (itR itP : List (Int × String)) (pkg : String)
    (hitR : IterationOf g.regexps itR) (hitP : IterationOf g.prefixes itP)
    (hR : g.regexps = [])
    (hP : ∀ e ∈ g.prefixes, ¬ e.2.data <+: pkg.data) :
    g.Group re itR itP pkg =
      some (if ' ' ∈ pkg.data then g.named
            else if '.' ∈ pkg.data then g.other else g.std) := by
  have hnil : itR = [] := by
    unfold IterationOf at hitR
    rw [hR] at hitR
    exact List.Perm.eq_nil hitR
  have h1 : rangeRegexps re itR pkg = some none := by rw [hnil]; rfl
  have h2 : rangePrefixes itP pkg = none :=
    rangePrefixes_none itP pkg (fun e he => hP e ((List.Perm.mem_iff hitP).1 he))
  exact Group_fallback re g itR itP pkg h1 h2

/-- C1, on a fresh grouper: `fmt` is in group 0, `github.com/x/y` in group 1 and
`box rice/box` in group 2. -/
theorem Group_no_rule_witness :
    NewGrouper.Group exampleRegexp [] [] "fmt" = some 0 ∧
    NewGrouper.Group exampleRegexp [] [] "github.com/x/y" = some 1 ∧
    NewGrouper.Group exampleRegexp [] [] "box rice/box" = some 2 :=
  ⟨Group_no_rule exampleRegexp NewGrouper [] [] "fmt" (List.Perm.refl _) (List.Perm.refl _)
      rfl (by simp [NewGrouper]),
   Group_no_rule exampleRegexp NewGrouper [] [] "github.com/x/y" (List.Perm.refl _)
      (List.Perm.refl _) rfl (by simp [NewGrouper]),
   Group_no_rule exampleRegexp NewGrouper [] [] "box rice/box" (List.Perm.refl _)
      (List.Perm.refl _) rfl (by simp [NewGrouper])⟩

/-- C4, as the code has it: when some configured regexp rule matches the key, whatever
`Group` returns is the index of a regexp rule that matches the key, and so not the index
of a prefix rule on a state where no index is a key of both maps; and `Group` does return
when every configured pattern compiles. -/
theorem Group_regexp_first (re : String → Option (String → Bool)) (g : grouper)
    (itR itP : List (Int × String)) (pkg : String)
    (hitR : IterationOf g.regexps itR)
    (hmatch : ∃ e ∈ g.regexps, ∃ m, re e.2 = some m ∧ m pkg = true) :
    (∀ n, g.Group re itR itP pkg = some n →
      (∃ pat m, (n, pat) ∈ g.regexps ∧ re pat = some m ∧ m pkg = true) ∧
      ((∀ e ∈ g.regexps, ∀ e1 ∈ g.prefixes, e.1 ≠ e1.1) → ∀ e1 ∈ g.prefixes, n ≠ e1.1)) ∧
    ((∀ e ∈ g.regexps, (re e.2).isSome = true) → ∃ n, g.Group re itR itP pkg = some n) := by
  have hend : rangeRegexps re itR pkg ≠ some none := by
    apply rangeRegexps_ne_end
    obtain ⟨e, he, hm⟩ := hmatch
    exact ⟨e, (List.Perm.mem_iff hitR).2 he, hm⟩
  constructor
  · intro n hn
    have hsome : rangeRegexps re itR pkg = some (some n) := by
      unfold grouper.Group at hn
      cases hr : rangeRegexps re itR pkg with
      | none => simp [hr] at hn
      | some r =>
        cases r with
        | none => exact absurd hr hend
        | some k =>
          simp only [hr, Option.some.injEq] at hn
          rw [hn]
    obtain ⟨pat, m, h1, h2, h3⟩ := rangeRegexps_some re itR pkg n hsome
    have hmem : (n, pat) ∈ g.regexps := (List.Perm.mem_iff hitR).1 h1
    exact ⟨⟨pat, m, hmem, h2, h3⟩, fun hdis e1 he1 => hdis (n, pat) hmem e1 he1⟩
  · intro hcomp
    have hne : rangeRegexps re itR pkg ≠ none :=
      rangeRegexps_ne_none re itR pkg (fun e he => hcomp e ((List.Perm.mem_iff hitR).1 he))
    unfold grouper.Group
    cases hr : rangeRegexps re itR pkg with
    | none => exact absurd hr hne
    | some r =>
      cases r with
      | none => exact absurd hr hend
      | some k => exact ⟨k, rfl⟩

/-- C4, on `regexp=^foo,prefix=foo` and on `prefix=foo,regexp=^foo`: the key `foo/bar`
is given the index of the regexp rule, 3 in the first case and 4 in the second. -/
theorem Group_regexp_first_witness :
    (NewGrouper.Set "regexp=^foo,prefix=foo").1.Group exampleRegexp
      [(3, "^foo")] [(4, "foo")] "foo/bar" = some 3 ∧
    (NewGrouper.Set "prefix=foo,regexp=^foo").1.Group exampleRegexp
      [(4, "^foo")] [(3, "foo")] "foo/bar" = some 4 := by
  have h1 := Group_regexp_first exampleRegexp (NewGrouper.Set "regexp=^foo,prefix=foo").1
    [(3, "^foo")] [(4, "foo")] "foo/bar" (by decide)
    ⟨(3, "^foo"), by decide, _, rfl, by decide⟩
  have h2 := Group_regexp_first exampleRegexp (NewGrouper.Set "prefix=foo,regexp=^foo").1
    [(4, "^foo")] [(3, "foo")] "foo/bar" (by decide)
    ⟨(4, "^foo"), by decide, _, rfl, by decide⟩
  constructor
  · obtain ⟨n, hn⟩ := h1.2 (by decide)
    obtain ⟨⟨pat, m, hmem, -, -⟩, -⟩ := h1.1 n hn
    have h3 : (NewGrouper.Set "regexp=^foo,prefix=foo").1.regexps = [(3, "^foo")] := by
      decide
    rw [h3] at hmem
    have : n = 3 := congrArg Prod.fst (List.mem_singleton.1 hmem)
    rw [hn, this]
  · obtain ⟨n, hn⟩ := h2.2 (by decide)
    obtain ⟨⟨pat, m, hmem, -, -⟩, -⟩ := h2.1 n hn
    have h3 : (NewGrouper.Set "prefix=foo,regexp=^foo").1.regexps = [(4, "^foo")] := by
      decide
    rw [h3] at hmem
    have : n = 4 := congrArg Prod.fst (List.mem_singleton.1 hmem)
    rw [hn, this]

/-- C4 fails as stated: after `regexp=(,regexp=^foo` the rule of index 4 matches
`foo/bar`, and `Group` panics on the pattern of index 3, which does not compile, when
the loop visits it first. -/
theorem Group_regexp_panic :
    (NewGrouper.Set "regexp=(,regexp=^foo").1.regexps = [(3, "("), (4, "^foo")] ∧
    (exampleRegexp "^foo").elim false (fun m => m "foo/bar") = true ∧
    exampleRegexp "(" = none ∧
    (NewGrouper.Set "regexp=(,regexp=^foo").1.Group exampleRegexp
      [(3, "("), (4, "^foo")] [] "foo/bar" = none := by
  refine ⟨by decide, by decide, rfl, by decide⟩

/-- C5 fails on the code: after `prefix=a,prefix=ab` both prefix rules match `abc`, the
loop over the map may visit the rule of index 4 first, and `Group` then returns 4, which
is not the smallest matching index. -/
theorem Group_prefix_any_order :
    (NewGrouper.Set "prefix=a,prefix=ab").1.prefixes = [(3, "a"), (4, "ab")] ∧
    IterationOf (NewGrouper.Set "prefix=a,prefix=ab").1.prefixes [(4, "ab"), (3, "a")] ∧
    (NewGrouper.Set "prefix=a,prefix=ab").1.Group exampleRegexp
      [] [(4, "ab"), (3, "a")] "abc" = some 4 := by
  refine ⟨by decide, by decide, by decide⟩

/-- C6 fails on the code: after `regexp=^a,regexp=^ab` two evaluations of `Group` on the
key `abc` that visit the map in the two possible orders return 3 and 4. -/
theorem Group_two_results :
    IterationOf (NewGrouper.Set "regexp=^a,regexp=^ab").1.regexps [(3, "^a"), (4, "^ab")] ∧
    IterationOf (NewGrouper.Set "regexp=^a,regexp=^ab").1.regexps [(4, "^ab"), (3, "^a")] ∧
    (NewGrouper.Set "regexp=^a,regexp=^ab").1.Group exampleRegexp
      [(3, "^a"), (4, "^ab")] [] "abc" = some 3 ∧
    (NewGrouper.Set "regexp=^a,regexp=^ab").1.Group exampleRegexp
      [(4, "^ab"), (3, "^a")] [] "abc" = some 4 := by
  refine ⟨by decide, by decide, by decide, by decide⟩

/-! ## Lemmas on `Set` -/

theorem applyToken_eq (g : grouper) (p : String) :
    applyToken g p =
      if p = "std" then some { g with std := g.next, next := g.next + 1 }
      else if p = "named" then some { g with named := g.next, next := g.next + 1 }
      else if p = "other" then some { g with other := g.next, next := g.next + 1 }
      else
        match rePrefix p with
        | some lit =>
          some { g with prefixes := mapSet g.prefixes g.next lit, next := g.next + 1 }
        | none =>
          match reRegexp p with
          | some pat =>
            some { g with regexps := mapSet g.regexps g.next pat, next := g.next + 1 }
          | none => none := by
  unfold applyToken
  by_cases h1 : p = "std"
  · simp [setParts, h1]
  by_cases h2 : p = "named"
  · simp [setParts, h2]
  by_cases h3 : p = "other"
  · simp [setParts, h3]
  cases h4 : rePrefix p with
  | some lit => simp [setParts, h1, h2, h3, h4]
  | none =>
    cases h5 : reRegexp p with
    | some pat => simp [setParts, h1, h2, h3, h4, h5]
    | none => simp [setParts, h1, h2, h3, h4, h5]

theorem setParts_cons (g : grouper) (p : String) (ps : List String) :
    setParts g (p :: ps) =
      match applyToken g p with
      | some g1 => setParts g1 ps
      | none => (g, some (unknownSpec p)) := by
  rw [applyToken_eq]
  by_cases h1 : p = "std"
  · simp [setParts, h1]
  by_cases h2 : p = "named"
  · simp [setParts, h2]
  by_cases h3 : p = "other"
  · simp [setParts, h3]
  cases h4 : rePrefix p with
  | some lit => simp [setParts, h1, h2, h3, h4]
  | none =>
    cases h5 : reRegexp p with
    | some pat => simp [setParts, h1, h2, h3, h4, h5]
    | none => simp [setParts, h1, h2, h3, h4, h5]

theorem applyToken_isSome (g : grouper) (p : String) :
    (applyToken g p).isSome = recognised p := by
  rw [applyToken_eq, recognised]
  by_cases h1 : p = "std"
  · simp [h1]
  by_cases h2 : p = "named"
  · simp [h2]
  by_cases h3 : p = "other"
  · simp [h3]
  cases h4 : rePrefix p with
  | some lit => simp [h1, h2, h3]
  | none =>
    cases h5 : reRegexp p with
    | some pat => simp [h1, h2, h3]
    | none => simp [h1, h2, h3]

theorem prefix_data : "prefix=".data = ['p', 'r', 'e', 'f', 'i', 'x', '='] := rfl

theorem regexp_data : "regexp=".data = ['r', 'e', 'g', 'e', 'x', 'p', '='] := rfl

theorem append_left_cancel (key a b : String) (h : key ++ a = key ++ b) : a = b := by
  have h1 := congrArg String.data h
  rw [String.data_append, String.data_append] at h1
  exact String.ext (List.append_cancel_left h1)

theorem prefix_ne_regexp (a b : String) : "prefix=" ++ a ≠ "regexp=" ++ b := by
  intro h
  have h1 := congrArg String.data h
  rw [String.data_append, String.data_append, prefix_data, regexp_data] at h1
  simp at h1

theorem rePrefix_regexp (pat : String) : rePrefix ("regexp=" ++ pat) = none := by
  cases h : rePrefix ("regexp=" ++ pat) with
  | none => rfl
  | some lit =>
    exact absurd ((findAfter_eq_some _ _ _).1 h).1.symm (prefix_ne_regexp lit pat)

theorem literal_ne_keyword (lit p : String) (h : p = "prefix=" ++ lit) :
    p ≠ "std" ∧ p ≠ "named" ∧ p ≠ "other" := by
  subst h
  refine ⟨?_, ?_, ?_⟩ <;>
  · intro h
    have h1 := congrArg (fun s => s.data.head?) h
    simp only [String.data_append, prefix_data, List.cons_append, List.head?_cons] at h1
    revert h1
    decide

theorem pattern_ne_keyword (pat p : String) (h : p = "regexp=" ++ pat) :
    p ≠ "std" ∧ p ≠ "named" ∧ p ≠ "other" := by
  subst h
  refine ⟨?_, ?_, ?_⟩ <;>
  · intro h
    have h1 := congrArg (fun s => s.data.head?) h
    simp only [String.data_append, regexp_data, List.cons_append, List.head?_cons] at h1
    revert h1
    decide

theorem mapGet_mapSet (m : List (Int × String)) (k k1 : Int) (v : String) :
    mapGet (mapSet m k v) k1 = if k = k1 then some v else mapGet m k1 := by
  induction m with
  | nil => simp [mapSet, mapGet]
  | cons e m ih =>
    obtain ⟨k2, v2⟩ := e
    by_cases h : k2 = k
    · subst h
      by_cases h2 : k2 = k1 <;> simp [mapSet, mapGet, h2]
    · simp only [mapSet, h, if_false, mapGet, ih]
      by_cases h2 : k2 = k1
      · subst h2
        simp [h, Ne.symm h]
      · simp [h2]

theorem applyToken_std (g : grouper) :
    applyToken g "std" = some { g with std := g.next, next := g.next + 1 } := by
  rw [applyToken_eq]; rfl

theorem applyToken_named (g : grouper) :
    applyToken g "named" = some { g with named := g.next, next := g.next + 1 } := by
  rw [applyToken_eq]; rfl

theorem applyToken_other (g : grouper) :
    applyToken g "other" = some { g with other := g.next, next := g.next + 1 } := by
  rw [applyToken_eq]; rfl

theorem applyToken_literal (g : grouper) (lit : String) (h : '\n' ∉ lit.data) :
    applyToken g ("prefix=" ++ lit) =
      some { g with prefixes := mapSet g.prefixes g.next lit, next := g.next + 1 } := by
  obtain ⟨h1, h2, h3⟩ := literal_ne_keyword lit _ rfl
  have h4 : rePrefix ("prefix=" ++ lit) = some lit :=
    (findAfter_eq_some _ _ _).2 ⟨rfl, h⟩
  rw [applyToken_eq, if_neg h1, if_neg h2, if_neg h3, h4]

theorem applyToken_pattern (g : grouper) (pat : String) (h : '\n' ∉ pat.data) :
    applyToken g ("regexp=" ++ pat) =
      some { g with regexps := mapSet g.regexps g.next pat, next := g.next + 1 } := by
  obtain ⟨h1, h2, h3⟩ := pattern_ne_keyword pat _ rfl
  have h4 : reRegexp ("regexp=" ++ pat) = some pat :=
    (findAfter_eq_some _ _ _).2 ⟨rfl, h⟩
  rw [applyToken_eq, if_neg h1, if_neg h2, if_neg h3, rePrefix_regexp, h4]

/-- The five ways in which a token is accepted, with the state each leaves. -/
theorem applyToken_cases (g g1 : grouper) (p : String) (h : applyToken g p = some g1) :
    (p = "std" ∧ g1 = { g with std := g.next, next := g.next + 1 }) ∨
    (p = "named" ∧ g1 = { g with named := g.next, next := g.next + 1 }) ∨
    (p = "other" ∧ g1 = { g with other := g.next, next := g.next + 1 }) ∨
    (∃ lit, p = "prefix=" ++ lit ∧ '\n' ∉ lit.data ∧
      g1 = { g with prefixes := mapSet g.prefixes g.next lit, next := g.next + 1 }) ∨
    (∃ pat, p = "regexp=" ++ pat ∧ '\n' ∉ pat.data ∧
      g1 = { g with regexps := mapSet g.regexps g.next pat, next := g.next + 1 }) := by
  have hr : recognised p = true := by
    rw [← applyToken_isSome g p, h]; rfl
  rcases (recognised_iff p).1 hr with rfl | rfl | rfl | ⟨lit, rfl, hn⟩ | ⟨pat, rfl, hn⟩
  · rw [applyToken_std] at h
    exact Or.inl ⟨rfl, (Option.some.inj h).symm⟩
  · rw [applyToken_named] at h
    exact Or.inr (Or.inl ⟨rfl, (Option.some.inj h).symm⟩)
  · rw [applyToken_other] at h
    exact Or.inr (Or.inr (Or.inl ⟨rfl, (Option.some.inj h).symm⟩))
  · rw [applyToken_literal g lit hn] at h
    exact Or.inr (Or.inr (Or.inr (Or.inl ⟨lit, rfl, hn, (Option.some.inj h).symm⟩)))
  · rw [applyToken_pattern g pat hn] at h
    exact Or.inr (Or.inr (Or.inr (Or.inr ⟨pat, rfl, hn, (Option.some.inj h).symm⟩)))

theorem applyToken_next (g g1 : grouper) (p : String) (h : applyToken g p = some g1) :
    g1.next = g.next + 1 := by
  rcases applyToken_cases g g1 p h with ⟨-, rfl⟩ | ⟨-, rfl⟩ | ⟨-, rfl⟩ | ⟨_, -, -, rfl⟩ |
    ⟨_, -, -, rfl⟩ <;> rfl

theorem setParts_error (g : grouper) (ts : List String) :
    (setParts g ts).2 = (ts.find? (fun t => !recognised t)).map unknownSpec := by
  induction ts generalizing g with
  | nil => rfl
  | cons p ps ih =>
    rw [setParts_cons, List.find?_cons]
    have hr := applyToken_isSome g p
    cases h : applyToken g p with
    | none =>
      rw [h] at hr
      have hr1 : recognised p = false := hr.symm
      simp [hr1]
    | some g1 =>
      rw [h] at hr
      have hr1 : recognised p = true := hr.symm
      simpa [hr1] using ih g1

theorem setParts_next (g : grouper) (ts : List String)
    (h : ∀ t ∈ ts, recognised t = true) :
    (setParts g ts).1.next = g.next + ts.length := by
  induction ts generalizing g with
  | nil => simp [setParts]
  | cons p ps ih =>
    rw [setParts_cons]
    have hr : (applyToken g p).isSome = true := by
      rw [applyToken_isSome]; exact h p (List.mem_cons_self _ _)
    obtain ⟨g1, hg1⟩ := Option.isSome_iff_exists.1 hr
    rw [hg1]
    show (setParts g1 ps).1.next = _
    rw [ih g1 (fun t ht => h t (List.mem_cons_of_mem _ ht)), applyToken_next g g1 p hg1]
    simp only [List.length_cons, Nat.cast_add, Nat.cast_one]
    omega

/-- A field that the token `tok` sets to `next` and that every other token keeps ends
at the last position of `tok`, or at its old value when `tok` does not occur. -/
theorem setParts_field (f : grouper → Int) (tok : String)
    (hset : ∀ g g1, applyToken g tok = some g1 → f g1 = g.next)
    (hkeep : ∀ g g1 p, p ≠ tok → applyToken g p = some g1 → f g1 = f g)
    (g : grouper) (ts : List String) (h : ∀ t ∈ ts, recognised t = true) :
    (tok ∉ ts → f (setParts g ts).1 = f g) ∧
    (∀ i : Nat, ts[i]? = some tok → tok ∉ ts.drop (i + 1) →
      f (setParts g ts).1 = g.next + i) := by
  induction ts generalizing g with
  | nil => simp [setParts]
  | cons p ps ih =>
    have hr : (applyToken g p).isSome = true := by
      rw [applyToken_isSome]; exact h p (List.mem_cons_self _ _)
    obtain ⟨g1, hg1⟩ := Option.isSome_iff_exists.1 hr
    have hrec : setParts g (p :: ps) = setParts g1 ps := by rw [setParts_cons, hg1]
    obtain ⟨ih1, ih2⟩ := ih g1 (fun t ht => h t (List.mem_cons_of_mem _ ht))
    rw [hrec]
    constructor
    · intro hmem
      rw [ih1 (fun hm => hmem (List.mem_cons_of_mem _ hm))]
      exact hkeep g g1 p (fun e => hmem (e ▸ List.mem_cons_self _ _)) hg1
    · intro i hi hlast
      cases i with
      | zero =>
        have hp : p = tok := by simpa using hi
        subst hp
        have hnot : p ∉ ps := by simpa using hlast
        rw [ih1 hnot, hset g g1 hg1]
        simp
      | succ i =>
        have hi1 : ps[i]? = some tok := by simpa using hi
        have hlast1 : tok ∉ ps.drop (i + 1) := by simpa using hlast
        rw [ih2 i hi1 hlast1, applyToken_next g g1 p hg1]
        push_cast
        omega

/-- A map whose entries below `next` no token touches keeps them through `Set`. -/
theorem setParts_map_lt (f : grouper → List (Int × String))
    (hstep : ∀ g g1 p k, applyToken g p = some g1 → k ≠ g.next →
      mapGet (f g1) k = mapGet (f g) k)
    (g : grouper) (ts : List String) (k : Int) (hk : k < g.next) :
    mapGet (f (setParts g ts).1) k = mapGet (f g) k := by
  induction ts generalizing g with
  | nil => rfl
  | cons p ps ih =>
    rw [setParts_cons]
    cases h : applyToken g p with
    | none => rfl
    | some g1 =>
      show mapGet (f (setParts g1 ps).1) k = _
      have hn := applyToken_next g g1 p h
      rw [ih g1 (by omega), hstep g g1 p k h (by omega)]

/-- A map in which the tokens `key ++ lit` store `lit` under `next` holds, after `Set`,
the text of the token of position `i` under `next + i`. -/
theorem setParts_map_at (f : grouper → List (Int × String)) (key : String)
    (hstep : ∀ g g1 p k, applyToken g p = some g1 → k ≠ g.next →
      mapGet (f g1) k = mapGet (f g) k)
    (hput : ∀ g g1 lit, applyToken g (key ++ lit) = some g1 →
      mapGet (f g1) g.next = some lit)
    (g : grouper) (ts : List String) (h : ∀ t ∈ ts, recognised t = true)
    (i : Nat) (lit : String) (hi : ts[i]? = some (key ++ lit)) :
    mapGet (f (setParts g ts).1) (g.next + i) = some lit := by
  induction ts generalizing g i with
  | nil => simp at hi
  | cons p ps ih =>
    have hr : (applyToken g p).isSome = true := by
      rw [applyToken_isSome]; exact h p (List.mem_cons_self _ _)
    obtain ⟨g1, hg1⟩ := Option.isSome_iff_exists.1 hr
    have hrec : setParts g (p :: ps) = setParts g1 ps := by rw [setParts_cons, hg1]
    have hn := applyToken_next g g1 p hg1
    rw [hrec]
    cases i with
    | zero =>
      have hp : p = key ++ lit := by simpa using hi
      subst hp
      rw [setParts_map_lt f hstep g1 ps _ (by simp [hn])]
      simpa using hput g g1 lit hg1
    | succ i =>
      have hi1 : ps[i]? = some (key ++ lit) := by simpa using hi
      have := ih g1 (fun t ht => h t (List.mem_cons_of_mem _ ht)) i hi1
      rw [hn] at this
      rw [← this]
      congr 1
      push_cast
      omega

theorem std_keep (g g1 : grouper) (p : String) (hp : p ≠ "std")
    (h : applyToken g p = some g1) : g1.std = g.std := by
  rcases applyToken_cases g g1 p h with ⟨e, -⟩ | ⟨-, rfl⟩ | ⟨-, rfl⟩ | ⟨_, -, -, rfl⟩ |
    ⟨_, -, -, rfl⟩
  · exact absurd e hp
  all_goals rfl

theorem named_keep (g g1 : grouper) (p : String) (hp : p ≠ "named")
    (h : applyToken g p = some g1) : g1.named = g.named := by
  rcases applyToken_cases g g1 p h with ⟨-, rfl⟩ | ⟨e, -⟩ | ⟨-, rfl⟩ | ⟨_, -, -, rfl⟩ |
    ⟨_, -, -, rfl⟩
  · rfl
  · exact absurd e hp
  all_goals rfl

theorem other_keep (g g1 : grouper) (p : String) (hp : p ≠ "other")
    (h : applyToken g p = some g1) : g1.other = g.other := by
  rcases applyToken_cases g g1 p h with ⟨-, rfl⟩ | ⟨-, rfl⟩ | ⟨e, -⟩ | ⟨_, -, -, rfl⟩ |
    ⟨_, -, -, rfl⟩
  · rfl
  · rfl
  · exact absurd e hp
  all_goals rfl

theorem std_set (g g1 : grouper) (h : applyToken g "std" = some g1) : g1.std = g.next := by
  rw [applyToken_std] at h
  rw [← Option.some.inj h]

theorem named_set (g g1 : grouper) (h : applyToken g "named" = some g1) :
    g1.named = g.next := by
  rw [applyToken_named] at h
  rw [← Option.some.inj h]

theorem other_set (g g1 : grouper) (h : applyToken g "other" = some g1) :
    g1.other = g.next := by
  rw [applyToken_other] at h
  rw [← Option.some.inj h]

theorem prefixes_step (g g1 : grouper) (p : String) (k : Int)
    (h : applyToken g p = some g1) (hk : k ≠ g.next) :
    mapGet g1.prefixes k = mapGet g.prefixes k := by
  rcases applyToken_cases g g1 p h with ⟨-, rfl⟩ | ⟨-, rfl⟩ | ⟨-, rfl⟩ | ⟨_, -, -, rfl⟩ |
    ⟨_, -, -, rfl⟩
  · rfl
  · rfl
  · rfl
  · show mapGet (mapSet _ _ _) k = _
    rw [mapGet_mapSet, if_neg (Ne.symm hk)]
  · rfl

theorem regexps_step (g g1 : grouper) (p : String) (k : Int)
    (h : applyToken g p = some g1) (hk : k ≠ g.next) :
    mapGet g1.regexps k = mapGet g.regexps k := by
  rcases applyToken_cases g g1 p h with ⟨-, rfl⟩ | ⟨-, rfl⟩ | ⟨-, rfl⟩ | ⟨_, -, -, rfl⟩ |
    ⟨_, -, -, rfl⟩
  · rfl
  · rfl
  · rfl
  · rfl
  · show mapGet (mapSet _ _ _) k = _
    rw [mapGet_mapSet, if_neg (Ne.symm hk)]

theorem prefixes_put (g g1 : grouper) (lit : String)
    (h : applyToken g ("prefix=" ++ lit) = some g1) :
    mapGet g1.prefixes g.next = some lit := by
  obtain ⟨h1, h2, h3⟩ := literal_ne_keyword lit _ rfl
  rcases applyToken_cases g g1 _ h with ⟨e, -⟩ | ⟨e, -⟩ | ⟨e, -⟩ | ⟨l, e, -, rfl⟩ |
    ⟨l, e, -, -⟩
  · exact absurd e h1
  · exact absurd e h2
  · exact absurd e h3
  · rw [append_left_cancel _ _ _ e]
    show mapGet (mapSet _ _ _) _ = _
    rw [mapGet_mapSet, if_pos rfl]
  · exact absurd e (prefix_ne_regexp _ _)

theorem regexps_put (g g1 : grouper) (pat : String)
    (h : applyToken g ("regexp=" ++ pat) = some g1) :
    mapGet g1.regexps g.next = some pat := by
  obtain ⟨h1, h2, h3⟩ := pattern_ne_keyword pat _ rfl
  rcases applyToken_cases g g1 _ h with ⟨e, -⟩ | ⟨e, -⟩ | ⟨e, -⟩ | ⟨l, e, -, -⟩ |
    ⟨l, e, -, rfl⟩
  · exact absurd e h1
  · exact absurd e h2
  · exact absurd e h3
  · exact absurd e.symm (prefix_ne_regexp _ _)
  · rw [append_left_cancel _ _ _ e]
    show mapGet (mapSet _ _ _) _ = _
    rw [mapGet_mapSet, if_pos rfl]

theorem splitChars_mem (l t : List Char) (ht : t ∈ splitChars l) : ∀ c ∈ t, c ∈ l := by
  induction l generalizing t with
  | nil =>
    have : t = [] := by simpa [splitChars] using ht
    subst this
    simp
  | cons a l ih =>
    by_cases ha : a = ','
    · simp only [splitChars, ha, if_true, List.mem_cons] at ht
      rcases ht with rfl | ht
      · simp
      · intro c hc
        exact List.mem_cons_of_mem _ (ih t ht c hc)
    · simp only [splitChars, ha, if_false] at ht
      cases hs : splitChars l with
      | nil =>
        rw [hs] at ht
        have : t = [a] := by simpa using ht
        subst this
        simp
      | cons u us =>
        rw [hs] at ht
        simp only [List.mem_cons] at ht
        rcases ht with rfl | ht
        · intro c hc
          rcases List.mem_cons.1 hc with rfl | hc
          · exact List.mem_cons_self _ _
          · exact List.mem_cons_of_mem _ (ih u (by rw [hs]; exact List.mem_cons_self _ _) c hc)
        · intro c hc
          exact List.mem_cons_of_mem _
            (ih t (by rw [hs]; exact List.mem_cons_of_mem _ ht) c hc)

theorem Split_mem (s t : String) (ht : t ∈ Split s) : ∀ c ∈ t.data, c ∈ s.data := by
  obtain ⟨l, hl, rfl⟩ := List.mem_map.1 ht
  exact splitChars_mem s.data l hl

/-- On a token without a newline, the tests of `Set` accept exactly the five shapes of
the grammar. -/
theorem recognised_iff_shape (t : String) (hn : '\n' ∉ t.data) :
    recognised t = true ↔
      t = "std" ∨ t = "named" ∨ t = "other" ∨
      (∃ lit, t = "prefix=" ++ lit) ∨ (∃ pat, t = "regexp=" ++ pat) := by
  rw [recognised_iff]
  have hkey : ∀ key lit : String, t = key ++ lit → '\n' ∉ lit.data := by
    intro key lit e hc
    apply hn
    rw [e, String.data_append]
    exact List.mem_append_right _ hc
  constructor
  · rintro (h | h | h | ⟨lit, h, -⟩ | ⟨pat, h, -⟩)
    · exact Or.inl h
    · exact Or.inr (Or.inl h)
    · exact Or.inr (Or.inr (Or.inl h))
    · exact Or.inr (Or.inr (Or.inr (Or.inl ⟨lit, h⟩)))
    · exact Or.inr (Or.inr (Or.inr (Or.inr ⟨pat, h⟩)))
  · rintro (h | h | h | ⟨lit, h⟩ | ⟨pat, h⟩)
    · exact Or.inl h
    · exact Or.inr (Or.inl h)
    · exact Or.inr (Or.inr (Or.inl h))
    · exact Or.inr (Or.inr (Or.inr (Or.inl ⟨lit, h, hkey _ lit h⟩)))
    · exact Or.inr (Or.inr (Or.inr (Or.inr ⟨pat, h, hkey _ pat h⟩)))

theorem setParts_error_some (g : grouper) (ts : List String) (e : String) :
    (setParts g ts).2 = some e ↔
      ∃ pre t post, ts = pre ++ t :: post ∧ (∀ u ∈ pre, recognised u = true) ∧
        recognised t = false ∧ e = unknownSpec t := by
  rw [setParts_error, Option.map_eq_some']
  constructor
  · rintro ⟨t, ht, rfl⟩
    obtain ⟨h1, pre, post, h2, h3⟩ := List.find?_eq_some.1 ht
    refine ⟨pre, t, post, h2, ?_, by simpa using h1, rfl⟩
    intro u hu
    simpa using h3 u hu
  · rintro ⟨pre, t, post, h2, h3, h4, rfl⟩
    refine ⟨t, List.find?_eq_some.2 ⟨by simp [h4], pre, post, h2, ?_⟩, rfl⟩
    intro u hu
    simp [h3 u hu]

/-! ## The claims on `Set` -/

/-- C2: on a fresh grouper, a specification whose tokens are all recognised (`std`,
`named`, `other`, or `prefix=` or `regexp=` followed by a text that the pattern `(.*)`
accepts, that is a text without a newline) is accepted: `Set` returns nil, `next` ends at
3 plus the number of tokens, the token `prefix=L` of position `i` is stored as
`prefixes[3+i] = L` and the token `regexp=P` as `regexps[3+i] = P`, and each of `std`,
`named` and `other` is 3 plus the last position of its token, or its default (0, 2, 1)
when its token does not occur (the last position of a token is the one after which
the token does not occur again). -/
theorem Set_fresh (s : String)
    (h : ∀ t ∈ Split s, t = "std" ∨ t = "named" ∨ t = "other" ∨
      (∃ lit, t = "prefix=" ++ lit ∧ '\n' ∉ lit.data) ∨
      (∃ pat, t = "regexp=" ++ pat ∧ '\n' ∉ pat.data)) :
    (NewGrouper.Set s).2 = none ∧
    (NewGrouper.Set s).1.next = 3 + (Split s).length ∧
    (∀ (i : Nat) (lit : String), (Split s)[i]? = some ("prefix=" ++ lit) →
      mapGet (NewGrouper.Set s).1.prefixes (3 + i) = some lit) ∧
    (∀ (i : Nat) (pat : String), (Split s)[i]? = some ("regexp=" ++ pat) →
      mapGet (NewGrouper.Set s).1.regexps (3 + i) = some pat) ∧
    (∀ i : Nat, (Split s)[i]? = some "std" →
      "std" ∉ (Split s).drop (i + 1) → (NewGrouper.Set s).1.std = 3 + i) ∧
    ("std" ∉ Split s → (NewGrouper.Set s).1.std = 0) ∧
    (∀ i : Nat, (Split s)[i]? = some "named" →
      "named" ∉ (Split s).drop (i + 1) → (NewGrouper.Set s).1.named = 3 + i) ∧
    ("named" ∉ Split s → (NewGrouper.Set s).1.named = 2) ∧
    (∀ i : Nat, (Split s)[i]? = some "other" →
      "other" ∉ (Split s).drop (i + 1) → (NewGrouper.Set s).1.other = 3 + i) ∧
    ("other" ∉ Split s → (NewGrouper.Set s).1.other = 1) := by
  have hr : ∀ t ∈ Split s, recognised t = true :=
    fun t ht => (recognised_iff t).2 (h t ht)
  have hstd := setParts_field grouper.std "std" std_set std_keep NewGrouper (Split s) hr
  have hnamed :=
    setParts_field grouper.named "named" named_set named_keep NewGrouper (Split s) hr
  have hother :=
    setParts_field grouper.other "other" other_set other_keep NewGrouper (Split s) hr
  refine ⟨?_, setParts_next NewGrouper (Split s) hr, ?_, ?_, hstd.2, hstd.1, hnamed.2,
    hnamed.1, hother.2, hother.1⟩
  · show (setParts NewGrouper (Split s)).2 = none
    rw [setParts_error]
    have : List.find? (fun t => !recognised t) (Split s) = none := by
      rw [List.find?_eq_none]
      intro t ht
      simp [hr t ht]
    rw [this]; rfl
  · intro i lit hi
    exact setParts_map_at grouper.prefixes "prefix=" prefixes_step prefixes_put NewGrouper
      (Split s) hr i lit hi
  · intro i pat hi
    exact setParts_map_at grouper.regexps "regexp=" regexps_step regexps_put NewGrouper
      (Split s) hr i pat hi

/-- C2, on `other,prefix=a,std,regexp=^b,std`: the last `std` wins and `named` keeps its
default. -/
theorem Set_fresh_witness :
    (NewGrouper.Set "other,prefix=a,std,regexp=^b,std").2 = none ∧
    (NewGrouper.Set "other,prefix=a,std,regexp=^b,std").1.next = 8 ∧
    mapGet (NewGrouper.Set "other,prefix=a,std,regexp=^b,std").1.prefixes 4 = some "a" ∧
    mapGet (NewGrouper.Set "other,prefix=a,std,regexp=^b,std").1.regexps 6 = some "^b" ∧
    (NewGrouper.Set "other,prefix=a,std,regexp=^b,std").1.std = 7 ∧
    (NewGrouper.Set "other,prefix=a,std,regexp=^b,std").1.named = 2 ∧
    (NewGrouper.Set "other,prefix=a,std,regexp=^b,std").1.other = 3 := by
  have h := Set_fresh "other,prefix=a,std,regexp=^b,std"
    (fun t ht => (recognised_iff t).1 (by revert t; decide))
  obtain ⟨h1, h2, h3, h4, h5, -, -, h8, h9, -⟩ := h
  exact ⟨h1, h2, h3 1 "a" rfl, h4 3 "^b" rfl, h5 4 rfl (by decide),
    h8 (by decide), h9 0 rfl (by decide)⟩

/-- C3: on a specification without a newline, and whatever the state of the grouper,
`Set` returns an error exactly when some token is neither `std`, `named` or `other` nor a
text that begins with `prefix=` or `regexp=`; the error then reads
`Unknown order specification '<t>'` for the leftmost such token `t`. -/
theorem Set_error (g : grouper) (s : String) (hs : '\n' ∉ s.data) :
    ((g.Set s).2 ≠ none ↔
      ∃ t ∈ Split s, ¬ (t = "std" ∨ t = "named" ∨ t = "other" ∨
        (∃ lit, t = "prefix=" ++ lit) ∨ (∃ pat, t = "regexp=" ++ pat))) ∧
    (∀ e, (g.Set s).2 = some e →
      ∃ pre t post, Split s = pre ++ t :: post ∧
        (∀ u ∈ pre, u = "std" ∨ u = "named" ∨ u = "other" ∨
          (∃ lit, u = "prefix=" ++ lit) ∨ (∃ pat, u = "regexp=" ++ pat)) ∧
        ¬ (t = "std" ∨ t = "named" ∨ t = "other" ∨
          (∃ lit, t = "prefix=" ++ lit) ∨ (∃ pat, t = "regexp=" ++ pat)) ∧
        e = "Unknown order specification '" ++ t ++ "'") := by
  have hshape : ∀ t ∈ Split s, (recognised t = true ↔
      t = "std" ∨ t = "named" ∨ t = "other" ∨
      (∃ lit, t = "prefix=" ++ lit) ∨ (∃ pat, t = "regexp=" ++ pat)) :=
    fun t ht => recognised_iff_shape t (fun hc => hs (Split_mem s t ht _ hc))
  have hsome : ∀ e, (g.Set s).2 = some e →
      ∃ pre t post, Split s = pre ++ t :: post ∧
        (∀ u ∈ pre, u = "std" ∨ u = "named" ∨ u = "other" ∨
          (∃ lit, u = "prefix=" ++ lit) ∨ (∃ pat, u = "regexp=" ++ pat)) ∧
        ¬ (t = "std" ∨ t = "named" ∨ t = "other" ∨
          (∃ lit, t = "prefix=" ++ lit) ∨ (∃ pat, t = "regexp=" ++ pat)) ∧
        e = "Unknown order specification '" ++ t ++ "'" := by
    intro e he
    obtain ⟨pre, t, post, h1, h2, h3, h4⟩ := (setParts_error_some g (Split s) e).1 he
    refine ⟨pre, t, post, h1, ?_, ?_, h4⟩
    · intro u hu
      exact (hshape u (by rw [h1]; exact List.mem_append_left _ hu)).1 (h2 u hu)
    · intro hc
      have := (hshape t (by rw [h1]; simp)).2 hc
      rw [h3] at this
      exact Bool.false_ne_true this
  refine ⟨⟨?_, ?_⟩, hsome⟩
  · intro hne
    obtain ⟨e, he⟩ := Option.ne_none_iff_exists.1 hne
    obtain ⟨pre, t, post, h1, -, h3, -⟩ := hsome e he.symm
    exact ⟨t, by rw [h1]; simp, h3⟩
  · rintro ⟨t, ht, hno⟩
    have hrec : recognised t = false := by
      cases hr : recognised t with
      | false => rfl
      | true => exact absurd ((hshape t ht).1 hr) hno
    show (setParts g (Split s)).2 ≠ none
    rw [setParts_error]
    obtain ⟨pre, post, hsplit⟩ := List.append_of_mem ht
    intro hnone
    rw [Option.map_eq_none', List.find?_eq_none] at hnone
    have := hnone t ht
    simp [hrec] at this

/-- C3, on the empty specification: its only token is the empty one, and `Set` fails
naming it. -/
theorem Set_error_witness :
    (NewGrouper.Set "").2 = some "Unknown order specification ''" := by
  have h := Set_error NewGrouper "" (by decide)
  have hno : ¬ ("" = "std" ∨ "" = "named" ∨ "" = "other" ∨
      (∃ lit, "" = "prefix=" ++ lit) ∨ (∃ pat, "" = "regexp=" ++ pat)) := by
    intro hc
    have hr := (recognised_iff_shape "" (by decide)).2 hc
    revert hr
    decide
  have hne : (NewGrouper.Set "").2 ≠ none := h.1.2 ⟨"", by decide, hno⟩
  obtain ⟨e, he⟩ := Option.ne_none_iff_exists.1 hne
  obtain ⟨pre, t, post, h1, -, -, h4⟩ := h.2 e he.symm
  have hsplit : Split "" = [""] := by decide
  rw [hsplit] at h1
  cases pre with
  | nil =>
    simp only [List.nil_append, List.cons.injEq] at h1
    obtain ⟨rfl, -⟩ := h1
    rw [← he, h4]
    decide
  | cons a pre =>
    simp at h1

/-! ## Reachable groupers -/

theorem applyToken_distinct (g g1 : grouper) (p : String) (hg : DistinctDefaults g)
    (h : applyToken g p = some g1) : DistinctDefaults g1 := by
  obtain ⟨h1, h2, h3, h4, h5, h6⟩ := hg
  rcases applyToken_cases g g1 p h with ⟨-, rfl⟩ | ⟨-, rfl⟩ | ⟨-, rfl⟩ | ⟨_, -, -, rfl⟩ |
    ⟨_, -, -, rfl⟩ <;>
  · refine ⟨?_, ?_, ?_, ?_, ?_, ?_⟩ <;> simp only [ne_eq] <;> omega

theorem setParts_distinct (g : grouper) (ts : List String) (hg : DistinctDefaults g) :
    DistinctDefaults (setParts g ts).1 := by
  induction ts generalizing g with
  | nil => exact hg
  | cons p ps ih =>
    rw [setParts_cons]
    cases h : applyToken g p with
    | none => exact hg
    | some g1 => exact ih g1 (applyToken_distinct g g1 p hg h)

theorem Reachable_distinct (g : grouper) (h : Reachable g) : DistinctDefaults g := by
  induction h with
  | fresh => simp [DistinctDefaults, NewGrouper]
  | set g s _ ih => exact setParts_distinct g (Split s) ih

/-! ## The import reader -/

theorem readSpecs_get (re : String → Option (String → Bool)) (g : grouper)
    (its : Nat → List (Int × String) × List (Int × String)) (k : Nat)
    (specs : List ImportSpec) (gs : List groupedImport)
    (h : readSpecs re g its k specs = Outcome.ok gs)
    (i : Nat) (ispec : ImportSpec) (hi : specs[i]? = some ispec) :
    ∃ r path, gs[i]? = some r ∧ ispec.Path = some path ∧ r.path = path ∧
      some r.group = g.Group re (its (k + i)).1 (its (k + i)).2
        (groupPath ispec.Name.isSome (ispec.Name.getD "") path) := by
  induction specs generalizing k gs i with
  | nil => simp at hi
  | cons sp rest ih =>
    simp only [readSpecs] at h
    cases hpath : sp.Path with
    | none => simp [hpath] at h
    | some path =>
      simp only [hpath] at h
      cases hG : g.Group re (its k).1 (its k).2
          (groupPath sp.Name.isSome (sp.Name.getD "") path) with
      | none => simp [hG] at h
      | some group =>
        simp only [hG] at h
        cases hrest : readSpecs re g its (k + 1) rest with
        | panic => simp [hrest] at h
        | error => simp [hrest] at h
        | ok gs1 =>
          simp only [hrest, Outcome.ok.injEq] at h
          subst h
          cases i with
          | zero =>
            have hsp : sp = ispec := by simpa using hi
            subst hsp
            exact ⟨_, path, List.getElem?_cons_zero, hpath, rfl, hG.symm⟩
          | succ i =>
            have hi1 : rest[i]? = some ispec := by simpa using hi
            obtain ⟨r, path1, h1, h2, h3, h4⟩ := ih (k + 1) gs1 hrest i hi1
            refine ⟨r, path1, by simpa using h1, h2, h3, ?_⟩
            have hidx : k + (i + 1) = k + 1 + i := by omega
            rw [hidx]
            exact h4

theorem readSpecs_ok (re : String → Option (String → Bool)) (g : grouper)
    (its : Nat → List (Int × String) × List (Int × String)) (k : Nat)
    (specs : List ImportSpec)
    (hG : ∀ i pkg, (g.Group re (its i).1 (its i).2 pkg).isSome = true)
    (hpaths : ∀ ispec ∈ specs, ispec.Path.isSome = true) :
    ∃ gs, readSpecs re g its k specs = Outcome.ok gs := by
  induction specs generalizing k with
  | nil => exact ⟨[], rfl⟩
  | cons sp rest ih =>
    obtain ⟨path, hpath⟩ := Option.isSome_iff_exists.1 (hpaths sp (List.mem_cons_self _ _))
    obtain ⟨group, hgroup⟩ := Option.isSome_iff_exists.1
      (hG k (groupPath sp.Name.isSome (sp.Name.getD "") path))
    obtain ⟨gs1, hgs1⟩ := ih (k + 1) (fun ispec h => hpaths ispec (List.mem_cons_of_mem _ h))
    simp only [readSpecs, hpath, hgroup, hgs1]
    exact ⟨_, rfl⟩

theorem mem_data_key (name path : String) : ' ' ∈ (name ++ " " ++ path).data := by
  simp [String.data_append]

theorem splitChars_no_comma (l : List Char) (h : ',' ∉ l) : splitChars l = [l] := by
  induction l with
  | nil => rfl
  | cons c l ih =>
    have hc : c ≠ ',' := fun e => h (e ▸ List.mem_cons_self _ _)
    have hl : ',' ∉ l := fun e => h (List.mem_cons_of_mem _ e)
    simp only [splitChars, hc, if_false, ih hl]

theorem Set_one_literal (s : String) (hc : ',' ∉ s.data) (hn : '\n' ∉ s.data) :
    NewGrouper.Set ("prefix=" ++ s) =
      ({ regexps := [], prefixes := [(3, s)], std := 0, other := 1, named := 2, next := 4 },
        none) := by
  have hsplit : Split ("prefix=" ++ s) = ["prefix=" ++ s] := by
    unfold Split
    rw [splitChars_no_comma]
    · rfl
    · rw [String.data_append, prefix_data]
      simp only [List.mem_append, not_or]
      exact ⟨by decide, hc⟩
  unfold grouper.Set
  rw [hsplit, setParts_cons, applyToken_literal NewGrouper s hn]
  rfl

theorem Group_one_literal (re : String → Option (String → Bool)) (g : grouper)
    (s pkg : String) (n : Int) :
    g.Group re [] [(n, s)] pkg =
      some (if s.data <+: pkg.data then n
            else if ' ' ∈ pkg.data then g.named
            else if '.' ∈ pkg.data then g.other else g.std) := by
  by_cases h : s.data <+: pkg.data
  · have h1 : HasPrefix pkg s = true := (HasPrefix_iff pkg s).2 h
    simp [grouper.Group, rangeRegexps, rangePrefixes, h1, h]
  · have h1 : HasPrefix pkg s = false := by
      rw [← Bool.not_eq_true, HasPrefix_iff]; exact h
    have h2 : rangePrefixes [(n, s)] pkg = none := by
      simp [rangePrefixes, h1]
    rw [Group_fallback re g [] [(n, s)] pkg rfl h2, if_neg h]

/-- C7 fails as stated: with the configuration `prefix=github.com/me`, the import
`"github.com/me/foo"` is given group 3, and the import `foo "github.com/me/foo"`, whose
key `foo github.com/me/foo` does not start with the prefix, is given the named group 2. -/
theorem readImports_aliased_literal :
    IterationOf (NewGrouper.Set "prefix=github.com/me").1.prefixes [(3, "github.com/me")] ∧
    readImports exampleRegexp (NewGrouper.Set "prefix=github.com/me").1
      (fun _ => ([], [(3, "github.com/me")]))
      [{ Name := none, Path := some "github.com/me/foo", PosLine := 4, EndLine := 4,
         DocLine := none },
       { Name := some "foo", Path := some "github.com/me/foo", PosLine := 5, EndLine := 5,
         DocLine := none }] =
    Outcome.ok
      [{ startLine := 3, endLine := 3, path := "github.com/me/foo", group := 3,
         named := false, name := "" },
       { startLine := 4, endLine := 4, path := "github.com/me/foo", group := 2,
         named := true, name := "foo" }] := by
  refine ⟨by decide, by decide⟩

/-- C7, as the code has it: on a fresh grouper configured with `prefix=` followed by a
text `s` without comma and newline, when every path unquotes, `readImports` returns one
record per import, in order; an import without alias whose path starts with `s` is given
the index 3 of the rule, and an import with an alias is given 3 when its key, the alias,
a space and the path, starts with `s`, and the named index 2 otherwise. -/
theorem readImports_literal (re : String → Option (String → Bool)) (s : String)
    (its : Nat → List (Int × String) × List (Int × String))
    (imports : List ImportSpec)
    (hc : ',' ∉ s.data) (hn : '\n' ∉ s.data)
    (hits : ∀ i, IterationOf (NewGrouper.Set ("prefix=" ++ s)).1.regexps (its i).1 ∧
      IterationOf (NewGrouper.Set ("prefix=" ++ s)).1.prefixes (its i).2)
    (hpaths : ∀ ispec ∈ imports, ispec.Path.isSome = true) :
    ∃ gs, readImports re (NewGrouper.Set ("prefix=" ++ s)).1 its imports = Outcome.ok gs ∧
      ∀ (i : Nat) (ispec : ImportSpec), imports[i]? = some ispec →
        ∃ r, gs[i]? = some r ∧ ispec.Path = some r.path ∧
          (ispec.Name = none → s.data <+: r.path.data → r.group = 3) ∧
          (∀ name, ispec.Name = some name →
            r.group = if s.data <+: (name ++ " " ++ r.path).data then 3 else 2) := by
  rw [Set_one_literal s hc hn] at hits ⊢
  have hnil : ∀ i, (its i).1 = [] ∧ (its i).2 = [(3, s)] := by
    intro i
    obtain ⟨h1, h2⟩ := hits i
    exact ⟨List.Perm.eq_nil h1, List.perm_singleton.1 h2⟩
  obtain ⟨gs, hgs⟩ := readSpecs_ok re _ its 0 imports
    (fun i pkg => by rw [(hnil i).1, (hnil i).2, Group_one_literal]; rfl) hpaths
  refine ⟨gs, hgs, ?_⟩
  intro i ispec hi
  obtain ⟨r, path, h1, h2, h3, h4⟩ := readSpecs_get re _ its 0 imports gs hgs i ispec hi
  rw [Nat.zero_add, (hnil i).1, (hnil i).2, Group_one_literal] at h4
  have h5 := Option.some.inj h4
  subst h3
  refine ⟨r, h1, h2, ?_, ?_⟩
  · intro hname hpre
    rw [hname] at h5
    have h6 : groupPath (none : Option String).isSome ((none : Option String).getD "")
        r.path = r.path := rfl
    rw [h6, if_pos hpre] at h5
    exact h5
  · intro name hname
    rw [hname] at h5
    have h6 : groupPath (some name).isSome ((some name).getD "") r.path =
        name ++ " " ++ r.path := rfl
    rw [h6] at h5
    rw [h5]
    simp only [mem_data_key, if_true]

/-- C7, as the code has it, on the configuration `prefix=github.com/me` and the imports
`"github.com/me/foo"` and `foo "github.com/me/foo"`: the groups are 3 and 2. -/
theorem readImports_literal_witness :
    ∃ gs, readImports exampleRegexp (NewGrouper.Set ("prefix=" ++ "github.com/me")).1
        (fun _ => ([], [(3, "github.com/me")]))
        [{ Name := none, Path := some "github.com/me/foo", PosLine := 4, EndLine := 4,
           DocLine := none },
         { Name := some "foo", Path := some "github.com/me/foo", PosLine := 5,
           EndLine := 5, DocLine := none }] = Outcome.ok gs ∧
      (∃ r, gs[0]? = some r ∧ r.group = 3) ∧
      (∃ r, gs[1]? = some r ∧ r.group = 2) := by
  obtain ⟨gs, hgs, h⟩ := readImports_literal exampleRegexp "github.com/me"
    (fun _ => ([], [(3, "github.com/me")]))
    [{ Name := none, Path := some "github.com/me/foo", PosLine := 4, EndLine := 4,
       DocLine := none },
     { Name := some "foo", Path := some "github.com/me/foo", PosLine := 5,
       EndLine := 5, DocLine := none }]
    (by decide) (by decide)
    (fun _ => ⟨(by decide : IterationOf
        (NewGrouper.Set ("prefix=" ++ "github.com/me")).1.regexps []),
      (by decide : IterationOf
        (NewGrouper.Set ("prefix=" ++ "github.com/me")).1.prefixes [(3, "github.com/me")])⟩)
    (by decide)
  refine ⟨gs, hgs, ?_, ?_⟩
  · obtain ⟨r, h1, h2, h3, -⟩ := h 0 _ rfl
    have hpath : r.path = "github.com/me/foo" := (Option.some.inj h2).symm
    exact ⟨r, h1, h3 rfl (by rw [hpath]; decide)⟩
  · obtain ⟨r, h1, h2, -, h4⟩ := h 1 _ rfl
    have hpath : r.path = "github.com/me/foo" := (Option.some.inj h2).symm
    have h5 := h4 "foo" rfl
    rw [hpath] at h5
    exact ⟨r, h1, by rw [h5]; decide⟩

/-- C8: the key that `readImports` hands to `Group` for an import is its alias, a space
and its path when it has an alias, and its path otherwise.  So on a grouper without
regexp and prefix rules, when every path unquotes, `readImports` returns one record
per import, in order; the record of an import with an alias has the named index, and on a
grouper built by `NewGrouper` and `Set` the record of an import without alias whose path
holds no space has an index other than the named one. -/
theorem readImports_key (re : String → Option (String → Bool)) (g : grouper)
    (its : Nat → List (Int × String) × List (Int × String))
    (imports : List ImportSpec) :
    (∀ gs, readImports re g its imports = Outcome.ok gs →
      ∀ (i : Nat) (ispec : ImportSpec), imports[i]? = some ispec →
        ∃ r path, gs[i]? = some r ∧ ispec.Path = some path ∧ r.path = path ∧
          some r.group = g.Group re (its i).1 (its i).2
            (match ispec.Name with
             | some name => name ++ " " ++ path
             | none => path)) ∧
    (g.regexps = [] → g.prefixes = [] →
      (∀ i, IterationOf g.regexps (its i).1 ∧ IterationOf g.prefixes (its i).2) →
      (∀ ispec ∈ imports, ispec.Path.isSome = true) →
      ∃ gs, readImports re g its imports = Outcome.ok gs ∧
        ∀ (i : Nat) (ispec : ImportSpec), imports[i]? = some ispec →
          ∃ r, gs[i]? = some r ∧ ispec.Path = some r.path ∧
            (ispec.Name.isSome = true → r.group = g.named) ∧
            (ispec.Name = none → ' ' ∉ r.path.data → Reachable g →
              r.group ≠ g.named)) := by
  have hkey : ∀ gs, readImports re g its imports = Outcome.ok gs →
      ∀ (i : Nat) (ispec : ImportSpec), imports[i]? = some ispec →
        ∃ r path, gs[i]? = some r ∧ ispec.Path = some path ∧ r.path = path ∧
          some r.group = g.Group re (its i).1 (its i).2
            (match ispec.Name with
             | some name => name ++ " " ++ path
             | none => path) := by
    intro gs hgs i ispec hi
    obtain ⟨r, path, h1, h2, h3, h4⟩ := readSpecs_get re g its 0 imports gs hgs i ispec hi
    refine ⟨r, path, h1, h2, h3, ?_⟩
    rw [Nat.zero_add] at h4
    rw [h4]
    cases ispec.Name <;> rfl
  refine ⟨hkey, ?_⟩
  intro hR hP hits hpaths
  have hnil : ∀ i, (its i).1 = [] ∧ (its i).2 = [] := by
    intro i
    obtain ⟨h1, h2⟩ := hits i
    unfold IterationOf at h1 h2
    rw [hR] at h1
    rw [hP] at h2
    exact ⟨List.Perm.eq_nil h1, List.Perm.eq_nil h2⟩
  have hgroup : ∀ i pkg, g.Group re (its i).1 (its i).2 pkg =
      some (if ' ' ∈ pkg.data then g.named
            else if '.' ∈ pkg.data then g.other else g.std) := by
    intro i pkg
    rw [(hnil i).1, (hnil i).2]
    exact Group_fallback re g [] [] pkg rfl rfl
  obtain ⟨gs, hgs⟩ := readSpecs_ok re g its 0 imports
    (fun i pkg => by rw [hgroup i pkg]; rfl) hpaths
  refine ⟨gs, hgs, ?_⟩
  intro i ispec hi
  obtain ⟨r, path, h1, h2, h3, h4⟩ := hkey gs hgs i ispec hi
  rw [hgroup] at h4
  have h5 := Option.some.inj h4
  refine ⟨r, h1, by rw [h3]; exact h2, ?_, ?_⟩
  · intro hname
    obtain ⟨name, halias⟩ := Option.isSome_iff_exists.1 hname
    rw [halias] at h5
    simp only [mem_data_key, if_true] at h5
    exact h5
  · intro hname hspace hreach
    obtain ⟨-, -, -, d1, -, d3⟩ := Reachable_distinct g hreach
    rw [hname] at h5
    rw [h3] at hspace
    simp only [hspace, if_false] at h5
    rw [h5]
    by_cases hdot : '.' ∈ path.data
    · simp only [hdot, if_true]
      exact Ne.symm d3
    · simp only [hdot, if_false]
      exact d1

/-- C8, on a fresh grouper: the imports `f "fmt"` and `box "rice/box"` are given the
named index 2, and the import `"fmt"` an index other than 2. -/
theorem readImports_key_witness :
    ∃ gs, readImports exampleRegexp NewGrouper (fun _ => ([], []))
        [{ Name := some "f", Path := some "fmt", PosLine := 4, EndLine := 4,
           DocLine := none },
         { Name := some "box", Path := some "rice/box", PosLine := 5, EndLine := 5,
           DocLine := none },
         { Name := none, Path := some "fmt", PosLine := 6, EndLine := 6,
           DocLine := none }] = Outcome.ok gs ∧
      (∃ r, gs[0]? = some r ∧ r.group = 2) ∧
      (∃ r, gs[1]? = some r ∧ r.group = 2) ∧
      (∃ r, gs[2]? = some r ∧ r.group ≠ 2) := by
  obtain ⟨gs, hgs, h⟩ := (readImports_key exampleRegexp NewGrouper (fun _ => ([], []))
    [{ Name := some "f", Path := some "fmt", PosLine := 4, EndLine := 4, DocLine := none },
     { Name := some "box", Path := some "rice/box", PosLine := 5, EndLine := 5,
       DocLine := none },
     { Name := none, Path := some "fmt", PosLine := 6, EndLine := 6,
       DocLine := none }]).2 rfl rfl
    (fun _ => ⟨List.Perm.refl _, List.Perm.refl _⟩) (by decide)
  refine ⟨gs, hgs, ?_, ?_, ?_⟩
  · obtain ⟨r, h1, -, h3, -⟩ := h 0 _ rfl
    exact ⟨r, h1, h3 rfl⟩
  · obtain ⟨r, h1, -, h3, -⟩ := h 1 _ rfl
    exact ⟨r, h1, h3 rfl⟩
  · obtain ⟨r, h1, h2, -, h4⟩ := h 2 _ rfl
    have hpath : r.path = "fmt" := (Option.some.inj h2).symm
    exact ⟨r, h1, h4 rfl (by rw [hpath]; decide) Reachable.fresh⟩

/-! ## Repeated order arguments -/

theorem splitChars_ne_nil (l : List Char) : splitChars l ≠ [] := by
  cases l with
  | nil => simp [splitChars]
  | cons c cs =>
    by_cases hc : c = ','
    · simp [splitChars, hc]
    · cases h : splitChars cs <;> simp [splitChars, hc, h]

theorem splitChars_append (a b : List Char) :
    splitChars (a ++ ',' :: b) = splitChars a ++ splitChars b := by
  induction a with
  | nil => simp [splitChars]
  | cons c a ih =>
    by_cases hc : c = ','
    · simp [splitChars, hc, ih]
    · cases h : splitChars a with
      | nil => exact absurd h (splitChars_ne_nil a)
      | cons t ts =>
        have hl : splitChars (c :: (a ++ ',' :: b)) = (c :: t) :: (ts ++ splitChars b) := by
          simp only [splitChars, hc, if_false]
          rw [ih, h]
          rfl
        have hr : splitChars (c :: a) = (c :: t) :: ts := by
          simp only [splitChars, hc, if_false]
          rw [h]
        rw [List.cons_append, hl, hr]
        rfl

theorem Split_append (a b : String) : Split (a ++ "," ++ b) = Split a ++ Split b := by
  have hd : (a ++ "," ++ b).data = a.data ++ ',' :: b.data := by
    rw [String.data_append, String.data_append]
    simp
  unfold Split
  rw [hd, splitChars_append, List.map_append]

theorem setParts_append (g : grouper) (xs ys : List String)
    (h : (setParts g xs).2 = none) :
    setParts g (xs ++ ys) = setParts (setParts g xs).1 ys := by
  induction xs generalizing g with
  | nil => rfl
  | cons p ps ih =>
    rw [List.cons_append, setParts_cons, setParts_cons]
    rw [setParts_cons] at h
    cases hp : applyToken g p with
    | none => simp [hp] at h
    | some g1 =>
      rw [hp] at h
      exact ih g1 h

/-- C9: whatever the state of the grouper, when `Set(a)` succeeds, `Set(a)` followed by
`Set(b)` leaves the same state and returns the same result as `Set(a + "," + b)`. -/
theorem Set_merge (g : grouper) (a b : String) (h : (g.Set a).2 = none) :
    (g.Set a).1.Set b = g.Set (a ++ "," ++ b) := by
  unfold grouper.Set at *
  rw [Split_append, setParts_append g (Split a) (Split b) h]

/-- C9, on `-order std,prefix=x -order other,bogus`: both ways end in the same state
with the same error. -/
theorem Set_merge_witness :
    (NewGrouper.Set "std,prefix=x").2 = none ∧
    (NewGrouper.Set "std,prefix=x").1.Set "other,bogus" =
      NewGrouper.Set ("std,prefix=x" ++ "," ++ "other,bogus") ∧
    NewGrouper.Set ("std,prefix=x" ++ "," ++ "other,bogus") =
      ({ regexps := [], prefixes := [(4, "x")], std := 3, other := 5, named := 2,
         next := 6 }, some "Unknown order specification 'bogus'") :=
  ⟨by decide, Set_merge NewGrouper "std,prefix=x" "other,bogus" (by decide), by decide⟩

/-! ## The default order -/

/-- C10 fails on the code: a fresh grouper puts `fmt` (group 0) before the key `f fmt`
of the aliased `f "fmt"` (group 2), and after `Set("std,other")`, which leaves std = 3,
other = 4 and named = 2, the same two keys are in groups 3 and 2, in the other order. -/
theorem default_order_differs :
    NewGrouper.Group exampleRegexp [] [] "fmt" = some 0 ∧
    NewGrouper.Group exampleRegexp [] [] "f fmt" = some 2 ∧
    NewGrouper.Set "std,other" =
      ({ regexps := [], prefixes := [], std := 3, other := 4, named := 2, next := 5 },
        none) ∧
    (NewGrouper.Set "std,other").1.Group exampleRegexp [] [] "fmt" = some 3 ∧
    (NewGrouper.Set "std,other").1.Group exampleRegexp [] [] "f fmt" = some 2 := by
  refine ⟨by decide, by decide, by decide, by decide, by decide⟩

/-! ## The invariant of the reachable groupers -/

theorem keys_mapSet (m : List (Int × String)) (k : Int) (v : String)
    (h : k ∉ keys m) : keys (mapSet m k v) = keys m ++ [k] := by
  induction m with
  | nil => rfl
  | cons e m ih =>
    obtain ⟨k1, v1⟩ := e
    have h1 : k1 ≠ k := fun e => h (by simp [keys, e])
    have h2 : k ∉ keys m := fun hm => h (by
      simp only [keys, List.map_cons, List.mem_cons]
      exact Or.inr hm)
    simp only [mapSet, h1, if_false]
    simp only [keys, List.map_cons, List.cons_append]
    exact congrArg _ (ih h2)

/-- The invariant is kept when one of std, named and other moves to `next`. -/
theorem Invariant_keyword (g g1 : grouper) (hI : Invariant g)
    (hP : g1.prefixes = g.prefixes) (hR : g1.regexps = g.regexps)
    (hN : g1.next = g.next + 1)
    (h : (g1.std = g.next ∧ g1.named = g.named ∧ g1.other = g.other) ∨
         (g1.std = g.std ∧ g1.named = g.next ∧ g1.other = g.other) ∨
         (g1.std = g.std ∧ g1.named = g.named ∧ g1.other = g.next)) :
    Invariant g1 := by
  have h1 := hI.next_ge
  have h2 := hI.std_range
  have h3 := hI.named_range
  have h4 := hI.other_range
  have h5 := hI.std_named
  have h6 := hI.std_other
  have h7 := hI.named_other
  refine
    { next_ge := by omega
      nodupP := by rw [hP]; exact hI.nodupP
      nodupR := by rw [hR]; exact hI.nodupR
      rangeP := ?_
      rangeR := ?_
      disjoint := by rw [hP, hR]; exact hI.disjoint
      std_named := by omega
      std_other := by omega
      named_other := by omega
      std_range := by omega
      named_range := by omega
      other_range := by omega
      not_key := ?_ }
  · intro k hk
    rw [hP] at hk
    have := hI.rangeP k hk
    omega
  · intro k hk
    rw [hR] at hk
    have := hI.rangeR k hk
    omega
  · intro k hk
    rw [hP, hR] at hk
    have hnk := hI.not_key k hk
    have hlt : k < g.next := by
      rcases hk with hk | hk
      · exact (hI.rangeP k hk).2
      · exact (hI.rangeR k hk).2
    omega

/-- The invariant is kept when a rule is stored under `next` in one of the maps. -/
theorem Invariant_rule (g g1 : grouper) (hI : Invariant g)
    (hS : g1.std = g.std) (hNa : g1.named = g.named) (hO : g1.other = g.other)
    (hN : g1.next = g.next + 1)
    (h : (keys g1.prefixes = keys g.prefixes ++ [g.next] ∧ g1.regexps = g.regexps) ∨
         (g1.prefixes = g.prefixes ∧ keys g1.regexps = keys g.regexps ++ [g.next])) :
    Invariant g1 := by
  have h1 := hI.next_ge
  have h2 := hI.std_range
  have h3 := hI.named_range
  have h4 := hI.other_range
  have hnotP : g.next ∉ keys g.prefixes := fun hm => by
    have := (hI.rangeP _ hm).2
    omega
  have hnotR : g.next ∉ keys g.regexps := fun hm => by
    have := (hI.rangeR _ hm).2
    omega
  have hfresh : ∀ l : List Int, l.Nodup → g.next ∉ l → (l ++ [g.next]).Nodup := by
    intro l hl hn
    exact List.Nodup.append hl (List.nodup_singleton _) (by
      intro a ha hb
      rw [List.mem_singleton] at hb
      exact hn (hb ▸ ha))
  have hmemP : ∀ k, k ∈ keys g1.prefixes → k ∈ keys g.prefixes ∨ k = g.next := by
    intro k hk
    rcases h with ⟨e, -⟩ | ⟨e, -⟩
    · rw [e, List.mem_append, List.mem_singleton] at hk
      exact hk
    · rw [e] at hk
      exact Or.inl hk
  have hmemR : ∀ k, k ∈ keys g1.regexps → k ∈ keys g.regexps ∨ k = g.next := by
    intro k hk
    rcases h with ⟨-, e⟩ | ⟨-, e⟩
    · rw [e] at hk
      exact Or.inl hk
    · rw [e, List.mem_append, List.mem_singleton] at hk
      exact hk
  refine
    { next_ge := by omega
      nodupP := ?_
      nodupR := ?_
      rangeP := ?_
      rangeR := ?_
      disjoint := ?_
      std_named := by rw [hS, hNa]; exact hI.std_named
      std_other := by rw [hS, hO]; exact hI.std_other
      named_other := by rw [hNa, hO]; exact hI.named_other
      std_range := by omega
      named_range := by omega
      other_range := by omega
      not_key := ?_ }
  · rcases h with ⟨e, -⟩ | ⟨e, -⟩
    · rw [e]; exact hfresh _ hI.nodupP hnotP
    · rw [e]; exact hI.nodupP
  · rcases h with ⟨-, e⟩ | ⟨-, e⟩
    · rw [e]; exact hI.nodupR
    · rw [e]; exact hfresh _ hI.nodupR hnotR
  · intro k hk
    rcases hmemP k hk with hk | hk
    · have := hI.rangeP k hk
      omega
    · omega
  · intro k hk
    rcases hmemR k hk with hk | hk
    · have := hI.rangeR k hk
      omega
    · omega
  · intro k hk hk1
    rcases h with ⟨e, e1⟩ | ⟨e, e1⟩
    · rw [e1] at hk1
      rcases hmemP k hk with hk | hk
      · exact hI.disjoint k hk hk1
      · exact hnotR (hk ▸ hk1)
    · rw [e] at hk
      rcases hmemR k hk1 with hk1 | hk1
      · exact hI.disjoint k hk hk1
      · exact hnotP (hk1 ▸ hk)
  · intro k hk
    have hold : (k ∈ keys g.prefixes ∨ k ∈ keys g.regexps) ∨ k = g.next := by
      rcases hk with hk | hk
      · rcases hmemP k hk with hk | hk
        · exact Or.inl (Or.inl hk)
        · exact Or.inr hk
      · rcases hmemR k hk with hk | hk
        · exact Or.inl (Or.inr hk)
        · exact Or.inr hk
    rw [hS, hNa, hO]
    rcases hold with hold | hold
    · exact hI.not_key k hold
    · omega

theorem applyToken_invariant (g g1 : grouper) (p : String) (hI : Invariant g)
    (h : applyToken g p = some g1) : Invariant g1 := by
  rcases applyToken_cases g g1 p h with ⟨-, rfl⟩ | ⟨-, rfl⟩ | ⟨-, rfl⟩ | ⟨lit, -, -, rfl⟩ |
    ⟨pat, -, -, rfl⟩
  · exact Invariant_keyword g _ hI rfl rfl rfl (Or.inl ⟨rfl, rfl, rfl⟩)
  · exact Invariant_keyword g _ hI rfl rfl rfl (Or.inr (Or.inl ⟨rfl, rfl, rfl⟩))
  · exact Invariant_keyword g _ hI rfl rfl rfl (Or.inr (Or.inr ⟨rfl, rfl, rfl⟩))
  · have hnot : g.next ∉ keys g.prefixes := fun hm => by
      have := (hI.rangeP _ hm).2
      omega
    exact Invariant_rule g _ hI rfl rfl rfl rfl
      (Or.inl ⟨keys_mapSet g.prefixes g.next lit hnot, rfl⟩)
  · have hnot : g.next ∉ keys g.regexps := fun hm => by
      have := (hI.rangeR _ hm).2
      omega
    exact Invariant_rule g _ hI rfl rfl rfl rfl
      (Or.inr ⟨rfl, keys_mapSet g.regexps g.next pat hnot⟩)

theorem setParts_invariant (g : grouper) (ts : List String) (hI : Invariant g) :
    Invariant (setParts g ts).1 := by
  induction ts generalizing g with
  | nil => exact hI
  | cons p ps ih =>
    rw [setParts_cons]
    cases h : applyToken g p with
    | none => exact hI
    | some g1 => exact ih g1 (applyToken_invariant g g1 p hI h)

theorem NewGrouper_invariant : Invariant NewGrouper := by
  refine
    { next_ge := by decide
      nodupP := List.nodup_nil
      nodupR := List.nodup_nil
      rangeP := by intro k hk; simp [keys, NewGrouper] at hk
      rangeR := by intro k hk; simp [keys, NewGrouper] at hk
      disjoint := by intro k hk; simp [keys, NewGrouper] at hk
      std_named := by decide
      std_other := by decide
      named_other := by decide
      std_range := Or.inl rfl
      named_range := Or.inl rfl
      other_range := Or.inl rfl
      not_key := by intro k hk; simp [keys, NewGrouper] at hk }

theorem Reachable_invariant (g : grouper) (h : Reachable g) : Invariant g := by
  induction h with
  | fresh => exact NewGrouper_invariant
  | set g s _ ih => exact setParts_invariant g (Split s) ih

theorem mem_keys (m : List (Int × String)) (e : Int × String) (h : e ∈ m) :
    e.1 ∈ keys m :=
  List.mem_map_of_mem Prod.fst h

/-- C14: in every state that `NewGrouper` and a sequence of calls of `Set`, failing or
not, lead to, `next` is at least 3, every key of `prefixes` and of `regexps` lies in
`[3, next)`, no index is a key of both maps, the indices of std, named and other are
pairwise distinct, each is its default (0, 2, 1) or lies in `[3, next)`, and none of
them is a key of either map. -/
theorem Reachable_state (g : grouper) (h : Reachable g) :
    3 ≤ g.next ∧
    (∀ e ∈ g.prefixes, 3 ≤ e.1 ∧ e.1 < g.next) ∧
    (∀ e ∈ g.regexps, 3 ≤ e.1 ∧ e.1 < g.next) ∧
    (∀ e ∈ g.prefixes, ∀ e1 ∈ g.regexps, e.1 ≠ e1.1) ∧
    g.std ≠ g.named ∧ g.std ≠ g.other ∧ g.named ≠ g.other ∧
    (g.std = 0 ∨ (3 ≤ g.std ∧ g.std < g.next)) ∧
    (g.named = 2 ∨ (3 ≤ g.named ∧ g.named < g.next)) ∧
    (g.other = 1 ∨ (3 ≤ g.other ∧ g.other < g.next)) ∧
    (∀ e, e ∈ g.prefixes ∨ e ∈ g.regexps →
      e.1 ≠ g.std ∧ e.1 ≠ g.named ∧ e.1 ≠ g.other) := by
  have hI := Reachable_invariant g h
  refine ⟨hI.next_ge, ?_, ?_, ?_, hI.std_named, hI.std_other, hI.named_other,
    hI.std_range, hI.named_range, hI.other_range, ?_⟩
  · exact fun e he => hI.rangeP e.1 (mem_keys _ e he)
  · exact fun e he => hI.rangeR e.1 (mem_keys _ e he)
  · intro e he e1 he1 heq
    exact hI.disjoint e.1 (mem_keys _ e he) (heq ▸ mem_keys _ e1 he1)
  · intro e he
    apply hI.not_key
    rcases he with he | he
    · exact Or.inl (mem_keys _ e he)
    · exact Or.inr (mem_keys _ e he)

/-- C14, after `Set("std,prefix=a,bogus")`, which fails, and `Set("regexp=b,other")`:
the state is std = 3, the prefix rule at 4, the regexp rule at 5, other = 6, named = 2
and next = 7, and the properties hold of it. -/
theorem Reachable_state_witness :
    ((NewGrouper.Set "std,prefix=a,bogus").1.Set "regexp=b,other").1 =
      { regexps := [(5, "b")], prefixes := [(4, "a")], std := 3, other := 6, named := 2,
        next := 7 } ∧
    3 ≤ ((NewGrouper.Set "std,prefix=a,bogus").1.Set "regexp=b,other").1.next ∧
    ((NewGrouper.Set "std,prefix=a,bogus").1.Set "regexp=b,other").1.std ≠
      ((NewGrouper.Set "std,prefix=a,bogus").1.Set "regexp=b,other").1.named :=
  have h := Reachable_state _
    (Reachable.set _ "regexp=b,other" (Reachable.set _ "std,prefix=a,bogus" Reachable.fresh))
  ⟨by decide, h.1, h.2.2.2.2.1⟩

/-! ## Rendering -/

theorem filter_step (l : List Int) (hn : l.Nodup) (i : Int) :
    (l.filter (fun k => decide (i ≤ k))).length =
      (l.filter (fun k => decide (i + 1 ≤ k))).length + (if i ∈ l then 1 else 0) := by
  induction l with
  | nil => simp
  | cons a l ih =>
    have hn1 := (List.nodup_cons.1 hn).2
    have ha := (List.nodup_cons.1 hn).1
    have ih1 := ih hn1
    by_cases hai : a = i
    · subst hai
      have h1 : a ∉ l := ha
      simp only [List.filter_cons, le_refl, decide_True, if_true, List.length_cons,
        List.mem_cons, true_or]
      have h2 : ¬ a + 1 ≤ a := by omega
      simp only [h2, decide_False, Bool.false_eq_true, if_false]
      simp only [h1, if_false] at ih1
      omega
    · have hmem : (i ∈ a :: l) ↔ i ∈ l := by
        simp only [List.mem_cons]
        constructor
        · rintro (e | e)
          · exact absurd e.symm hai
          · exact e
        · exact Or.inr
      by_cases hle : i ≤ a
      · have h2 : i + 1 ≤ a := by omega
        simp only [List.filter_cons, hle, h2, decide_True, if_true, List.length_cons]
        by_cases hil : i ∈ l
        · simp only [hil, hmem.2 hil, if_true] at ih1 ⊢
          omega
        · have : ¬ i ∈ a :: l := fun e => hil (hmem.1 e)
          simp only [hil, this, if_false] at ih1 ⊢
          omega
      · have h2 : ¬ i + 1 ≤ a := by omega
        simp only [List.filter_cons, hle, h2, decide_False, Bool.false_eq_true, if_false]
        by_cases hil : i ∈ l
        · simp only [hil, hmem.2 hil, if_true] at ih1 ⊢
          omega
        · have : ¬ i ∈ a :: l := fun e => hil (hmem.1 e)
          simp only [hil, this, if_false] at ih1 ⊢
          omega

theorem mapGet_none_iff (m : List (Int × String)) (i : Int) :
    mapGet m i = none ↔ i ∉ keys m := by
  induction m with
  | nil => simp [mapGet, keys]
  | cons e m ih =>
    obtain ⟨k, v⟩ := e
    by_cases h : k = i
    · simp [mapGet, keys, h]
    · have h1 : ¬ i = k := fun e => h e.symm
      simp only [mapGet, h, if_false, ih, keys, List.map_cons, List.mem_cons, h1, false_or]

theorem rulesFrom_step (g : grouper) (hI : Invariant g) (i : Int) :
    rulesFrom g i = rulesFrom g (i + 1) +
      ((if i ∈ keys g.prefixes then 1 else 0) + (if i ∈ keys g.regexps then 1 else 0)) := by
  unfold rulesFrom
  rw [filter_step _ hI.nodupP i, filter_step _ hI.nodupR i]
  omega

theorem rulesFrom_zero (g : grouper) (hI : Invariant g) :
    rulesFrom g 0 = g.prefixes.length + g.regexps.length := by
  unfold rulesFrom
  have h1 : (keys g.prefixes).filter (fun k => decide ((0 : Int) ≤ k)) = keys g.prefixes := by
    rw [List.filter_eq_self]
    intro k hk
    have := hI.rangeP k hk
    simp only [decide_eq_true_eq]
    omega
  have h2 : (keys g.regexps).filter (fun k => decide ((0 : Int) ≤ k)) = keys g.regexps := by
    rw [List.filter_eq_self]
    intro k hk
    have := hI.rangeR k hk
    simp only [decide_eq_true_eq]
    omega
  rw [h1, h2]
  simp [keys]

theorem rulesFrom_next (g : grouper) (hI : Invariant g) : rulesFrom g g.next = 0 := by
  unfold rulesFrom
  have h1 : (keys g.prefixes).filter (fun k => decide (g.next ≤ k)) = [] := by
    rw [List.filter_eq_nil_iff]
    intro k hk
    have := hI.rangeP k hk
    simp only [decide_eq_true_eq]
    omega
  have h2 : (keys g.regexps).filter (fun k => decide (g.next ≤ k)) = [] := by
    rw [List.filter_eq_nil_iff]
    intro k hk
    have := hI.rangeR k hk
    simp only [decide_eq_true_eq]
    omega
  rw [h1, h2]
  rfl

/-- On a grouper that has the invariant, the loop of `String` started at an index `i`
with the number of the rules from `i` on as its counter ends, within `next - i + 1`
tests of its condition, with the counter at 0 and the index at most `next`. -/
theorem stringLoop_ends (g : grouper) (hI : Invariant g) :
    ∀ (fuel : Nat) (i : Int) (parts : List String), i ≤ g.next →
      (g.next - i).toNat + 1 ≤ fuel →
      ∃ parts1 i1, stringLoop g fuel i (rulesFrom g i : Nat) parts = some (parts1, i1, 0) ∧
        i1 ≤ g.next := by
  intro fuel
  induction fuel with
  | zero =>
    intro i parts _ hf
    omega
  | succ fuel ih =>
    intro i parts hi hf
    have hstep := rulesFrom_step g hI i
    have hnext := hI.next_ge
    have hsr := hI.std_range
    have hnr := hI.named_range
    by_cases hc : i ≤ g.std ∨ i ≤ g.named ∨ ((rulesFrom g i : Nat) : Int) > 0
    · have hlt : i < g.next := by
        by_contra hge
        have he : i = g.next := by omega
        have h0 := rulesFrom_next g hI
        rw [he, h0] at hc
        simp only [Nat.cast_zero, gt_iff_lt, lt_self_iff_false, or_false] at hc
        omega
      have hf1 : (g.next - (i + 1)).toNat + 1 ≤ fuel := by omega
      have hi1 : i + 1 ≤ g.next := by omega
      have hkeep : i ∉ keys g.prefixes → i ∉ keys g.regexps →
          ((rulesFrom g i : Nat) : Int) = ((rulesFrom g (i + 1) : Nat) : Int) := by
        intro h1 h2
        simp only [h1, h2, if_false] at hstep
        rw [hstep]
        rfl
      have hdefault : (g.std = i ∨ g.named = i ∨ g.other = i) →
          i ∉ keys g.prefixes ∧ i ∉ keys g.regexps := by
        intro hd
        constructor
        · intro hm
          have := hI.not_key i (Or.inl hm)
          omega
        · intro hm
          have := hI.not_key i (Or.inr hm)
          omega
      by_cases hs : g.std = i
      · obtain ⟨h1, h2⟩ := hdefault (Or.inl hs)
        simp only [stringLoop]
        rw [if_pos hc, if_pos hs, hkeep h1 h2]
        exact ih (i + 1) _ hi1 hf1
      by_cases hn : g.named = i
      · obtain ⟨h1, h2⟩ := hdefault (Or.inr (Or.inl hn))
        simp only [stringLoop]
        rw [if_pos hc, if_neg hs, if_pos hn, hkeep h1 h2]
        exact ih (i + 1) _ hi1 hf1
      by_cases ho : g.other = i
      · obtain ⟨h1, h2⟩ := hdefault (Or.inr (Or.inr ho))
        simp only [stringLoop]
        rw [if_pos hc, if_neg hs, if_neg hn, if_pos ho, hkeep h1 h2]
        exact ih (i + 1) _ hi1 hf1
      cases hp : mapGet g.prefixes i with
      | some lit =>
        have h1 : i ∈ keys g.prefixes := by
          by_contra hno
          rw [(mapGet_none_iff _ _).2 hno] at hp
          exact Option.noConfusion hp
        have h2 : i ∉ keys g.regexps := hI.disjoint i h1
        have hdec : ((rulesFrom g i : Nat) : Int) - 1 = ((rulesFrom g (i + 1) : Nat) : Int) := by
          simp only [h1, h2, if_true, if_false] at hstep
          rw [hstep]
          push_cast
          omega
        simp only [stringLoop, hc, if_true, hs, if_false, hn, ho, hp]
        rw [hdec]
        exact ih (i + 1) _ hi1 hf1
      | none =>
        have h1 : i ∉ keys g.prefixes := (mapGet_none_iff _ _).1 hp
        cases hr : mapGet g.regexps i with
        | some pat =>
          have h2 : i ∈ keys g.regexps := by
            by_contra hno
            rw [(mapGet_none_iff _ _).2 hno] at hr
            exact Option.noConfusion hr
          have hdec : ((rulesFrom g i : Nat) : Int) - 1 =
              ((rulesFrom g (i + 1) : Nat) : Int) := by
            simp only [h1, h2, if_true, if_false] at hstep
            rw [hstep]
            push_cast
            omega
          simp only [stringLoop, hc, if_true, hs, if_false, hn, ho, hp, hr]
          rw [hdec]
          exact ih (i + 1) _ hi1 hf1
        | none =>
          have h2 : i ∉ keys g.regexps := (mapGet_none_iff _ _).1 hr
          simp only [stringLoop, hc, if_true, hs, if_false, hn, ho, hp, hr]
          rw [hkeep h1 h2]
          exact ih (i + 1) _ hi1 hf1
    · simp only [stringLoop, hc, if_false]
      have h0 : ((rulesFrom g i : Nat) : Int) = 0 := by
        have : ¬ ((rulesFrom g i : Nat) : Int) > 0 := fun h => hc (Or.inr (Or.inr h))
        omega
      rw [h0]
      exact ⟨parts, i, rfl, hi⟩

/-- More fuel does not change the result of the loop of `String`. -/
theorem stringLoop_mono (g : grouper) :
    ∀ (fuel fuel1 : Nat) (i remain : Int) (parts : List String)
      (r : List String × Int × Int), fuel ≤ fuel1 →
      stringLoop g fuel i remain parts = some r →
      stringLoop g fuel1 i remain parts = some r := by
  intro fuel
  induction fuel with
  | zero =>
    intro fuel1 i remain parts r _ h
    simp [stringLoop] at h
  | succ fuel ih =>
    intro fuel1 i remain parts r hle h
    obtain ⟨fuel2, rfl⟩ : ∃ fuel2, fuel1 = fuel2 + 1 := ⟨fuel1 - 1, by omega⟩
    have hle2 : fuel ≤ fuel2 := by omega
    simp only [stringLoop] at h ⊢
    split at h
    · rename_i hc
      rw [if_pos hc]
      split at h
      · rename_i hs
        rw [if_pos hs]
        exact ih fuel2 _ _ _ r hle2 h
      · rename_i hs
        rw [if_neg hs]
        split at h
        · rename_i hn
          rw [if_pos hn]
          exact ih fuel2 _ _ _ r hle2 h
        · rename_i hn
          rw [if_neg hn]
          split at h
          · rename_i ho
            rw [if_pos ho]
            exact ih fuel2 _ _ _ r hle2 h
          · rename_i ho
            rw [if_neg ho]
            cases hp : mapGet g.prefixes i with
            | some lit =>
              simp only [hp] at h ⊢
              exact ih fuel2 _ _ _ r hle2 h
            | none =>
              cases hr : mapGet g.regexps i with
              | some pat =>
                simp only [hp, hr] at h ⊢
                exact ih fuel2 _ _ _ r hle2 h
              | none =>
                simp only [hp, hr] at h ⊢
                exact ih fuel2 _ _ _ r hle2 h
    · rename_i hc
      rw [if_neg hc]
      exact h

/-- On the struct `shadowedRule` the counter of the loop of `String` stays at 1, and the
loop does not end, whatever the fuel. -/
theorem stringLoop_shadowed :
    ∀ (fuel : Nat) (i : Int) (parts : List String),
      stringLoop shadowedRule fuel i 1 parts = none := by
  intro fuel
  induction fuel with
  | zero => intro i parts; rfl
  | succ fuel ih =>
    intro i parts
    have hc : i ≤ shadowedRule.std ∨ i ≤ shadowedRule.named ∨ (1 : Int) > 0 :=
      Or.inr (Or.inr (by decide))
    simp only [stringLoop, hc, if_true]
    by_cases hs : shadowedRule.std = i
    · rw [if_pos hs]; exact ih _ _
    rw [if_neg hs]
    by_cases hn : shadowedRule.named = i
    · rw [if_pos hn]; exact ih _ _
    rw [if_neg hn]
    by_cases ho : shadowedRule.other = i
    · rw [if_pos ho]; exact ih _ _
    rw [if_neg ho]
    have hp : mapGet shadowedRule.prefixes i = none := by
      have h0 : ¬ (0 : Int) = i := hs
      simp [shadowedRule, mapGet, h0]
    have hr : mapGet shadowedRule.regexps i = none := rfl
    simp only [hp, hr]
    exact ih _ _

/-- C15: on every grouper that `NewGrouper` and a sequence of calls of `Set` lead to,
`String` terminates: given fuel for `next + 1` tests of its condition or more, its loop
ends with the counter `remain` at 0 and with an index that is at most `next`, and
`String` returns the parts joined by commas.  On the struct `shadowedRule`, where a
prefix rule is stored under the index of std, the loop does not end, whatever the fuel. -/
theorem String_terminates (g : grouper) (h : Reachable g) :
    (∃ parts i, i ≤ g.next ∧
      ∀ fuel, g.next.toNat + 1 ≤ fuel →
        stringLoop g fuel 0 (g.prefixes.length + g.regexps.length) [] =
          some (parts, i, 0) ∧
        g.String fuel = some (String.intercalate "," parts)) ∧
    (∀ fuel, shadowedRule.String fuel = none) := by
  have hI := Reachable_invariant g h
  constructor
  · obtain ⟨parts, i, h1, h2⟩ := stringLoop_ends g hI (g.next.toNat + 1) 0 []
      (by have := hI.next_ge; omega) (by omega)
    have hz : ((rulesFrom g 0 : Nat) : Int) = g.prefixes.length + g.regexps.length := by
      rw [rulesFrom_zero g hI]
      push_cast
      rfl
    rw [hz] at h1
    refine ⟨parts, i, h2, ?_⟩
    intro fuel hf
    have h3 := stringLoop_mono g _ fuel _ _ _ _ hf h1
    refine ⟨h3, ?_⟩
    unfold grouper.String
    rw [h3]
    rfl
  · intro fuel
    unfold grouper.String
    have h1 : ((shadowedRule.prefixes.length : Int) + shadowedRule.regexps.length) = 1 := by
      decide
    rw [h1, stringLoop_shadowed]
    rfl

/-- C15, after `Set("prefix=a,std,regexp=b")`, where `next` is 6: with fuel for 7 tests
the loop ends, and `String` returns `other,named,prefix=a,std,regexp=b`. -/
theorem String_terminates_witness :
    (NewGrouper.Set "prefix=a,std,regexp=b").1.String 7 =
      some "other,named,prefix=a,std,regexp=b" ∧
    ∃ parts i, i ≤ (NewGrouper.Set "prefix=a,std,regexp=b").1.next ∧
      stringLoop (NewGrouper.Set "prefix=a,std,regexp=b").1 7 0
        ((NewGrouper.Set "prefix=a,std,regexp=b").1.prefixes.length +
          (NewGrouper.Set "prefix=a,std,regexp=b").1.regexps.length) [] =
        some (parts, i, 0) := by
  obtain ⟨⟨parts, i, hi, hf⟩, -⟩ := String_terminates
    (NewGrouper.Set "prefix=a,std,regexp=b").1 (Reachable.set _ _ Reachable.fresh)
  exact ⟨by decide, parts, i, hi, (hf 7 (by decide)).1⟩

/-- C11 fails on the code: a fresh grouper renders `std,other,named`, but after
`Set("std,other")`, which leaves named = 2, std = 3, other = 4 and next = 5, the loop
of `String` stops once the index has passed std and named, and the rendering is
`named,std`: the token `other` of index 4 is left out. -/
theorem String_omits_other :
    NewGrouper.String 4 = some "std,other,named" ∧
    (NewGrouper.Set "std,other").1 =
      { regexps := [], prefixes := [], std := 3, other := 4, named := 2, next := 5 } ∧
    stringLoop (NewGrouper.Set "std,other").1 6 0 0 [] = some (["named", "std"], 4, 0) ∧
    (NewGrouper.Set "std,other").1.String 6 = some "named,std" := by
  refine ⟨by decide, by decide, by decide, by decide⟩

/-- C12 fails on the code: after `Set("std,other")` the grouper has named = 2 before
std = 3 before other = 4 and renders as `named,std`; `Set("named,std")` on a fresh
grouper succeeds and gives named = 3, std = 4 and other = 1, where other comes first. -/
theorem String_Set_reorders :
    (NewGrouper.Set "std,other").2 = none ∧
    (NewGrouper.Set "std,other").1.String 6 = some "named,std" ∧
    NewGrouper.Set "named,std" =
      ({ regexps := [], prefixes := [], std := 4, other := 1, named := 3, next := 5 },
        none) ∧
    (NewGrouper.Set "std,other").1.std < (NewGrouper.Set "std,other").1.other ∧
    (NewGrouper.Set "named,std").1.other < (NewGrouper.Set "named,std").1.std := by
  refine ⟨by decide, by decide, by decide, by decide, by decide⟩

/-! ## A failing `Set` -/

theorem setParts_stop (g : grouper) (pre post : List String) (t : String)
    (hpre : ∀ u ∈ pre, recognised u = true) (ht : recognised t = false) :
    (setParts g pre).2 = none ∧
    setParts g (pre ++ t :: post) = ((setParts g pre).1, some (unknownSpec t)) := by
  have h1 : (setParts g pre).2 = none := by
    rw [setParts_error]
    have : List.find? (fun u => !recognised u) pre = none := by
      rw [List.find?_eq_none]
      intro u hu
      simp [hpre u hu]
    rw [this]
    rfl
  refine ⟨h1, ?_⟩
  rw [setParts_append g pre (t :: post) h1, setParts_cons]
  have h2 : applyToken (setParts g pre).1 t = none := by
    have := applyToken_isSome (setParts g pre).1 t
    rw [ht] at this
    cases h : applyToken (setParts g pre).1 t with
    | none => rfl
    | some g1 =>
      rw [h] at this
      simp at this
  rw [h2]

/-- C16: when `Set(s)` returns an error, the tokens of `s` are `k` recognised tokens, an
unrecognised one, which the error names, and the rest; the grouper is left in the state
in which the loop of `Set` over the `k` first tokens alone, which succeeds, leaves it,
with `next` advanced by `k`; so on a grouper built by `NewGrouper` and `Set`, `wasSet` is
true when `k` is at least 1; and the state is unchanged exactly when `k` is 0. -/
theorem Set_not_atomic (g : grouper) (s e : String) (h : (g.Set s).2 = some e) :
    ∃ pre t post, Split s = pre ++ t :: post ∧
      (∀ u ∈ pre, recognised u = true) ∧ recognised t = false ∧
      e = "Unknown order specification '" ++ t ++ "'" ∧
      (setParts g pre).2 = none ∧
      (g.Set s).1 = (setParts g pre).1 ∧
      (g.Set s).1.next = g.next + pre.length ∧
      (Reachable g → 1 ≤ pre.length → (g.Set s).1.wasSet = true) ∧
      ((g.Set s).1 = g ↔ pre = []) := by
  obtain ⟨pre, t, post, h1, h2, h3, h4⟩ := (setParts_error_some g (Split s) e).1 h
  obtain ⟨h5, h6⟩ := setParts_stop g pre post t h2 h3
  have hstate : (g.Set s).1 = (setParts g pre).1 := by
    unfold grouper.Set
    rw [h1, h6]
  have hnext : (g.Set s).1.next = g.next + pre.length := by
    rw [hstate]
    exact setParts_next g pre h2
  refine ⟨pre, t, post, h1, h2, h3, h4, h5, hstate, hnext, ?_, ?_⟩
  · intro hr hk
    have h3le := (Reachable_invariant g hr).next_ge
    unfold grouper.wasSet
    rw [hnext]
    simp only [gt_iff_lt, decide_eq_true_eq]
    omega
  · constructor
    · intro heq
      rw [heq] at hnext
      have : pre.length = 0 := by omega
      exact List.length_eq_zero.1 this
    · intro hnil
      rw [hstate, hnil]
      rfl

/-- C16, on `Set("std,bogus")` on a fresh grouper: the call fails naming `bogus` and
leaves std = 3 and next = 4, the state after the token `std` alone. -/
theorem Set_not_atomic_witness :
    NewGrouper.Set "std,bogus" =
      ({ regexps := [], prefixes := [], std := 3, other := 1, named := 2, next := 4 },
        some "Unknown order specification 'bogus'") ∧
    (NewGrouper.Set "std,bogus").1.wasSet = true ∧
    ∃ pre t post, Split "std,bogus" = pre ++ t :: post ∧
      (NewGrouper.Set "std,bogus").1 = (setParts NewGrouper pre).1 ∧
      (NewGrouper.Set "std,bogus").1.next = NewGrouper.next + pre.length := by
  obtain ⟨pre, t, post, h1, -, -, -, -, h6, h7, -, -⟩ :=
    Set_not_atomic NewGrouper "std,bogus" "Unknown order specification 'bogus'" (by decide)
  exact ⟨by decide, by decide, pre, t, post, h1, h6, h7⟩

/-! ## The command -/

theorem validateLoop_ok (files : List (String × Option ValidationError × Option String))
    (hok : ∀ f ∈ files, f.2.2 = none) (invalid : Bool) (checked : List String)
    (out : List (String × ValidationError)) :
    validateLoop files invalid checked out =
      { checked := checked ++ files.map (fun f => f.1),
        stdout := out ++ files.filterMap (fun f => f.2.1.map (fun v => (f.1, v))),
        stderr := [],
        exit := if (invalid || files.any (fun f => f.2.1.isSome)) = true
                then some statusInvalidFile else none } := by
  induction files generalizing invalid checked out with
  | nil => simp [validateLoop]
  | cons f rest ih =>
    obtain ⟨file, validErr, err⟩ := f
    have herr : err = none := hok (file, validErr, err) (List.mem_cons_self _ _)
    subst herr
    have hrest : ∀ f ∈ rest, f.2.2 = none := fun f hf => hok f (List.mem_cons_of_mem _ hf)
    cases validErr with
    | none =>
      simp only [validateLoop]
      rw [ih hrest]
      simp
      try rfl
    | some v =>
      simp only [validateLoop]
      rw [ih hrest]
      simp
      try rfl

theorem validateLoop_fatal (pre post : List (String × Option ValidationError × Option String))
    (f : String × Option ValidationError × Option String) (e : String)
    (hpre : ∀ x ∈ pre, x.2.2 = none) (hf : f.2.2 = some e) (invalid : Bool)
    (checked : List String) (out : List (String × ValidationError)) :
    validateLoop (pre ++ f :: post) invalid checked out =
      { checked := checked ++ pre.map (fun x => x.1) ++ [f.1],
        stdout := out ++ pre.filterMap (fun x => x.2.1.map (fun v => (x.1, v))),
        stderr := [e],
        exit := some statusError } := by
  induction pre generalizing invalid checked out with
  | nil =>
    obtain ⟨file, validErr, err⟩ := f
    simp only at hf
    subst hf
    simp [validateLoop]
  | cons x pre ih =>
    obtain ⟨file, validErr, err⟩ := x
    have herr : err = none := hpre (file, validErr, err) (List.mem_cons_self _ _)
    subst herr
    have hrest : ∀ x ∈ pre, x.2.2 = none := fun x hx => hpre x (List.mem_cons_of_mem _ hx)
    cases validErr with
    | none =>
      simp only [List.cons_append, validateLoop]
      show validateLoop (pre ++ f :: post) invalid (checked ++ [file]) out = _
      rw [ih hrest]
      simp
    | some v =>
      simp only [List.cons_append, validateLoop]
      show validateLoop (pre ++ f :: post) true (checked ++ [file]) (out ++ [(file, v)]) = _
      rw [ih hrest]
      simp

theorem validateLoop_returns (files : List (String × Option ValidationError × Option String))
    (invalid : Bool) (checked : List String) (out : List (String × ValidationError)) :
    (validateLoop files invalid checked out).exit = none ↔
      invalid = false ∧ ∀ f ∈ files, f.2.1 = none ∧ f.2.2 = none := by
  induction files generalizing invalid checked out with
  | nil =>
    cases invalid <;> simp [validateLoop, statusInvalidFile]
  | cons f rest ih =>
    obtain ⟨file, validErr, err⟩ := f
    cases err with
    | some e => simp [validateLoop]
    | none =>
      cases validErr with
      | none =>
        simp only [validateLoop]
        rw [ih]
        simp
      | some v =>
        simp only [validateLoop]
        rw [ih]
        simp

/-- C13, as the code has it, with the checks of the files given in the order of the
command line, each as the pair `(validErr, err)` of `validateOne`.  When no check ends
in an error `err`, every file is checked, every validation error is reported, and the
run ends with status 3 if there is one and returns otherwise.  When a check ends in an
error, the first such check ends the run with status 1: the validation errors of the
files before it have been reported, and no file after it is checked.  The run returns
exactly when every check ends without validation error and without error. -/
theorem validateAll_exit (files : List (String × Option ValidationError × Option String)) :
    ((∀ f ∈ files, f.2.2 = none) →
      (validateAll files).checked = files.map (fun f => f.1) ∧
      (validateAll files).stdout =
        files.filterMap (fun f => f.2.1.map (fun v => (f.1, v))) ∧
      (validateAll files).stderr = [] ∧
      (validateAll files).exit =
        if files.any (fun f => f.2.1.isSome) = true then some 3 else none) ∧
    (∀ pre f post e, files = pre ++ f :: post → (∀ x ∈ pre, x.2.2 = none) →
      f.2.2 = some e →
      (validateAll files).checked = pre.map (fun x => x.1) ++ [f.1] ∧
      (validateAll files).stdout =
        pre.filterMap (fun x => x.2.1.map (fun v => (x.1, v))) ∧
      (validateAll files).stderr = [e] ∧
      (validateAll files).exit = some 1) ∧
    ((validateAll files).exit = none ↔ ∀ f ∈ files, f.2.1 = none ∧ f.2.2 = none) := by
  refine ⟨?_, ?_, ?_⟩
  · intro hok
    unfold validateAll
    rw [validateLoop_ok files hok]
    simp [statusInvalidFile]
    rfl
  · intro pre f post e hfiles hpre hf
    unfold validateAll
    rw [hfiles, validateLoop_fatal pre post f e hpre hf]
    simp [statusError]
  · unfold validateAll
    rw [validateLoop_returns]
    simp

/-- C13, as the code has it, on three files of which the second breaks the grouping:
all three are checked, the violation is reported, and the status is 3. -/
theorem validateAll_exit_witness :
    (validateAll
      [("a.go", none, none),
       ("b.go", some { Line := 7, Message := "Import out of order", ImportPath := "fmt" },
         none),
       ("c.go", none, none)]).checked = ["a.go", "b.go", "c.go"] ∧
    (validateAll
      [("a.go", none, none),
       ("b.go", some { Line := 7, Message := "Import out of order", ImportPath := "fmt" },
         none),
       ("c.go", none, none)]).exit = some 3 := by
  have h := (validateAll_exit
    [("a.go", none, none),
     ("b.go", some { Line := 7, Message := "Import out of order", ImportPath := "fmt" },
       none),
     ("c.go", none, none)]).1 (by decide)
  exact ⟨h.1, h.2.2.2⟩

/-- C13 fails as stated: when the grouping is violated in `a.go` and the check of
`b.go` ends in an error, the run ends with status 1, not 3; and when the check of `a.go`
ends in an error, the run ends with status 1 before `b.go`, where the grouping is
violated, is checked. -/
theorem validateAll_fatal_status :
    validateAll
      [("a.go", some { Line := 7, Message := "Import out of order", ImportPath := "fmt" },
         none),
       ("b.go", none, some "open b.go: no such file or directory")] =
      { checked := ["a.go", "b.go"],
        stdout := [("a.go",
          { Line := 7, Message := "Import out of order", ImportPath := "fmt" })],
        stderr := ["open b.go: no such file or directory"],
        exit := some 1 } ∧
    validateAll
      [("a.go", none, some "open a.go: no such file or directory"),
       ("b.go", some { Line := 7, Message := "Import out of order", ImportPath := "fmt" },
         none)] =
      { checked := ["a.go"],
        stdout := [],
        stderr := ["open a.go: no such file or directory"],
        exit := some 1 } := by
  refine ⟨by decide, by decide⟩

end gogroup
